import Mathlib

set_option maxHeartbeats 1000000

namespace JsonCompletion

/-- Shallow embedding of a JSON value (also the shape of a JSON-Schema
fragment, which in the source is just a plain JS object). Objects are
association lists in insertion order, as JS object literals are. -/
inductive JVal where
| null : JVal
| bool (b : Bool) : JVal
| num (n : Int) : JVal
| str (s : String) : JVal
| arr (elems : List JVal) : JVal
| obj (fields : List (String × JVal)) : JVal

/-- First-match lookup in a JS-object field list (JS objects have unique
keys, so first-match agrees with JS property access). -/
def oget (fields : List (String × JVal)) (k : String) : Option JVal :=
  (fields.find? (fun p => p.1 == k)).map (fun p => p.2)

/-- JS property access `v[k]`: fields of an object, `none` otherwise. -/
def jget (v : JVal) (k : String) : Option JVal :=
  match v with
  | .obj fs => oget fs k
  | _ => none

/-- JS truthiness of a value. -/
def jsTruthy (v : JVal) : Bool :=
  match v with
  | .null => false
  | .bool b => b
  | .num n => n != 0
  | .str s => s != ""
  | .arr _ => true
  | .obj _ => true

/-- JS truthiness of an optional value (`undefined` is falsy). -/
def otruthy (v : Option JVal) : Bool :=
  match v with
  | none => false
  | some x => jsTruthy x

/-- JS `typeof v === "object"` (true for objects, arrays and `null`). -/
def jsTypeofObject (v : JVal) : Bool :=
  match v with
  | .obj _ => true
  | .arr _ => true
  | .null => true
  | _ => false

mutual

/-- JS string coercion `String(v)` / `v.toString()` as used on schema
`type` fields (strings stay, arrays join their elements with commas). -/
def jsToStr (v : JVal) : String :=
  match v with
  | .null => "null"
  | .bool b => if b then "true" else "false"
  | .num n => toString n
  | .str s => s
  | .arr xs => jsToStrElems xs
  | .obj _ => "[object Object]"

/-- `Array.prototype.toString`: elements joined with commas; a `null`
element renders as the empty string. -/
def jsToStrElems (xs : List JVal) : String :=
  match xs with
  | [] => ""
  | [x] => (match x with | .null => "" | _ => jsToStr x)
  | x :: rest => (match x with | .null => "" | _ => jsToStr x) ++ "," ++ jsToStrElems rest

end

/-- Lower-case hex digit for a value below 16. -/
def hexDigit (n : Nat) : Char :=
  if n < 10 then Char.ofNat (48 + n) else Char.ofNat (87 + n)

/-- The escape `JSON.stringify` applies to one character inside a string
literal: quote, backslash and control characters are escaped. -/
def jsonEscapeChar (c : Char) : List Char :=
  if c = '"' then ['\\', '"']
  else if c = '\\' then ['\\', '\\']
  else if c = '\n' then ['\\', 'n']
  else if c = '\r' then ['\\', 'r']
  else if c = '\t' then ['\\', 't']
  else if c = '\x08' then ['\\', 'b']
  else if c = '\x0c' then ['\\', 'f']
  else if c.toNat < 32 then ['\\', 'u', '0', '0', hexDigit (c.toNat / 16), hexDigit (c.toNat % 16)]
  else [c]

/-- `JSON.stringify` of a string: double quotes around the escaped body. -/
def jsonQuote (s : String) : String :=
  ⟨'"' :: (s.data.flatMap jsonEscapeChar ++ ['"'])⟩

mutual

/-- `JSON.stringify(v)` (no indentation), the source's `getLabelForValue`
rendering of a concrete JSON value. -/
def jsonStringify (v : JVal) : String :=
  match v with
  | .null => "null"
  | .bool b => if b then "true" else "false"
  | .num n => toString n
  | .str s => jsonQuote s
  | .arr [] => "[]"
  | .arr xs => "[" ++ jsonStringifyElems xs ++ "]"
  | .obj [] => "\x7b\x7d"
  | .obj fs => "\x7b" ++ jsonStringifyFields fs ++ "\x7d"

/-- Array elements of compact `JSON.stringify`, comma separated. -/
def jsonStringifyElems (xs : List JVal) : String :=
  match xs with
  | [] => ""
  | [x] => jsonStringify x
  | x :: rest => jsonStringify x ++ "," ++ jsonStringifyElems rest

/-- Object members of compact `JSON.stringify`, comma separated. -/
def jsonStringifyFields (fs : List (String × JVal)) : String :=
  match fs with
  | [] => ""
  | [p] => jsonQuote p.1 ++ ":" ++ jsonStringify p.2
  | p :: rest => jsonQuote p.1 ++ ":" ++ jsonStringify p.2 ++ "," ++ jsonStringifyFields rest

end

/-- A run of `d` tab characters (the indentation unit of
`JSON.stringify(value, null, "\t")`). -/
def tabs (d : Nat) : String :=
  ⟨List.replicate d '\t'⟩

mutual

/-- `JSON.stringify(v, null, "\t")` at indentation depth `d`, as used by
the source's `getInsertTextForValue`. -/
def jsonStringifyTab (v : JVal) (d : Nat) : String :=
  match v with
  | .null => "null"
  | .bool b => if b then "true" else "false"
  | .num n => toString n
  | .str s => jsonQuote s
  | .arr [] => "[]"
  | .arr xs => "[\n" ++ jsonStringifyTabElems xs (d + 1) ++ "\n" ++ tabs d ++ "]"
  | .obj [] => "\x7b\x7d"
  | .obj fs => "\x7b\n" ++ jsonStringifyTabFields fs (d + 1) ++ "\n" ++ tabs d ++ "\x7d"

/-- Array elements of indented `JSON.stringify`, one per line. -/
def jsonStringifyTabElems (xs : List JVal) (d : Nat) : String :=
  match xs with
  | [] => ""
  | [x] => tabs d ++ jsonStringifyTab x d
  | x :: rest => tabs d ++ jsonStringifyTab x d ++ ",\n" ++ jsonStringifyTabElems rest d

/-- Object members of indented `JSON.stringify`, one per line. -/
def jsonStringifyTabFields (fs : List (String × JVal)) (d : Nat) : String :=
  match fs with
  | [] => ""
  | [p] => tabs d ++ jsonQuote p.1 ++ ": " ++ jsonStringifyTab p.2 d
  | p :: rest =>
    tabs d ++ jsonQuote p.1 ++ ": " ++ jsonStringifyTab p.2 d ++ ",\n" ++ jsonStringifyTabFields rest d

end

/-- Helper for JS `str.split("/")`: walk the characters accumulating the
current segment (reversed). -/
def splitSlashAux : List Char → List Char → List String
  | [], acc => [⟨acc.reverse⟩]
  | c :: cs, acc => if c = '/' then ⟨acc.reverse⟩ :: splitSlashAux cs [] else splitSlashAux cs (c :: acc)

/-- JS `ref.split("/")` with the single-character separator used on
`$ref` strings. -/
def splitSlash (s : String) : List String :=
  splitSlashAux s.data []

/-- JS `s.startsWith(p)`: the characters of `p` are a literal prefix of
the characters of `s` at position 0 (case sensitive). -/
def jsStartsWith (s p : String) : Bool :=
  p.data.isPrefixOf s.data

/-- The source's `pointer.replace(/\/[^\/]*$/, "/")` from `getSchemas`:
drop everything after the last slash, keeping that slash; a pointer with
no slash is unchanged. -/
def stripLastPointerSegment (p : String) : String :=
  if p.data.contains '/' then ⟨(p.data.reverse.dropWhile (fun c => c != '/')).reverse⟩ else p

/-- One completion proposal as the source builds it: the unquoted
display label, the optional snippet text (the source's `apply` string),
the proposal kind (the source's `type` field, here `ctype`), and the
optional `detail` and `info` strings. -/
structure Completion where
  label : String
  apply : Option String
  ctype : Option String
  detail : Option String
  info : Option String
deriving DecidableEq

/-- JS `Map.set` on the label-keyed map: replace in place for an
existing key, append for a new key. -/
def mapSet (m : List (String × Completion)) (k : String) (v : Completion) :
    List (String × Completion) :=
  if m.any (fun p => p.1 == k) then m.map (fun p => if p.1 == k then (k, v) else p)
  else m ++ [(k, v)]

/-- JS `Set.add` on the reserved-keys set. -/
def setAdd (s : List String) (k : String) : List String :=
  if k ∈ s then s else s ++ [k]

/-- The source's `CompletionCollector`: a label-keyed map of completions
plus the set of reserved labels. -/
structure Collector where
  completions : List (String × Completion)
  reservedKeys : List String
deriving DecidableEq

/-- A fresh collector, allocated per completion request. -/
def emptyCollector : Collector :=
  { completions := [], reservedKeys := [] }

/-- `CompletionCollector.reserve`: mark a label as forbidden. -/
def Collector.reserve (c : Collector) (key : String) : Collector :=
  { c with reservedKeys := setAdd c.reservedKeys key }

/-- `CompletionCollector.add`: insert unless the label is reserved,
overwriting any prior completion under the same label. -/
def Collector.add (c : Collector) (completion : Completion) : Collector :=
  if completion.label ∈ c.reservedKeys then c
  else { c with completions := mapSet c.completions completion.label completion }

/-- The `uniqueItems` wrapper built inline in `getValueCompletions`:
forward to `add` only when no completion with that label has been
collected yet in this request. -/
def Collector.addUnique (c : Collector) (completion : Completion) : Collector :=
  if c.completions.any (fun p => p.1 == completion.label) then c else c.add completion

/-- Collector insertion as selected by the `uniqueItems` wrapper flag. -/
def cadd (dedupe : Bool) (c : Collector) (completion : Completion) : Collector :=
  if dedupe then c.addUnique completion else c.add completion

/-- Lookup of the completion stored under a label. -/
def Collector.lookup (c : Collector) (label : String) : Option Completion :=
  ((c.completions.find? (fun p => p.1 == label))).map (fun p => p.2)

/-- The labels held by a collector, in insertion order. -/
def labelsOf (c : Collector) : List String :=
  c.completions.map (fun p => p.1)

/-- JS object spread of `v` over the fields `base` (the second spread
wins on key conflicts; spreading an array contributes its index keys;
spreading `null` contributes nothing). -/
def spreadInto (base : List (String × JVal)) (v : JVal) : List (String × JVal) :=
  match v with
  | .obj fs => base.filter (fun p => (oget fs p.1).isNone) ++ fs
  | .arr xs =>
    let ifs := xs.enum.map (fun p => (toString p.1, p.2))
    base.filter (fun p => (oget ifs p.1).isNone) ++ ifs
  | _ => base

/-- `Reflect.deleteProperty(o, k)`. -/
def odelete (fields : List (String × JVal)) (k : String) : List (String × JVal) :=
  fields.filter (fun p => p.1 != k)

/-- `getReferenceSchema`: split the `$ref` string on `/`; skip empty
segments, reset the cursor to the root on `#`, otherwise descend one
property level; a segment that does not exist degrades to an unresolved
(`none`) cursor. (JS guards the descent with `typeof cur === "object"`;
descending into a JSON `null` would throw there and is modelled as a
failed resolution; a non-object cursor is left unchanged.) -/
def getReferenceSchema (schema : JVal) (ref : String) : Option JVal :=
  (splitSlash ref).foldl
    (fun cur seg =>
      if seg = "" then cur
      else if seg = "#" then some schema
      else
        match cur with
        | some (.obj fs) => oget fs seg
        | some (.arr xs) => (seg.toNat?).bind (fun i => xs[i]?)
        | some .null => none
        | other => other)
    (some schema)

/-- `expandSchemaProperty`: a fragment carrying a truthy `$ref` is
dereferenced by the shallow JS spread of the resolved target over the
fragment (`$ref` itself is deleted from the merge); when the target is
not `typeof "object"` the fragment is returned unchanged. (A truthy
non-string `$ref` cannot occur under the `JSONSchema7` typing.) -/
def expandSchemaProperty (property : JVal) (schema : JVal) : JVal :=
  match property with
  | .obj pfields =>
    match oget pfields "$ref" with
    | some (.str r) =>
      if r != "" then
        match getReferenceSchema schema r with
        | some target =>
          if jsTypeofObject target then .obj (odelete (spreadInto pfields target) "$ref")
          else property
        | none => property
      else property
    | _ => property
  | _ => property

/-- Modelled from the spec: `stripSurroundingQuotes` lives in
`src/utils/node.ts`, which is not among the sources here; the spec says
labels are compared "after stripping any surrounding quote characters".
A single leading and a single trailing quote character (double or
single) are removed independently. -/
def stripSurroundingQuotes (s : String) : String :=
  let d := s.data
  let d := if d.head? = some '"' ∨ d.head? = some '\'' then d.tail else d
  let d := if d.getLast? = some '"' ∨ d.getLast? = some '\'' then d.dropLast else d
  ⟨d⟩

/-- The result filter at the end of `doComplete`: keep exactly the
collected completions whose unquoted label starts with the typed word. -/
def filterByPrefix (pfx : String) (options : List Completion) : List Completion :=
  options.filter (fun v => jsStartsWith (stripSurroundingQuotes v.label) pfx)

/-- `json5PropertyInsertSnippet`: in JSON5 mode the inserted key keeps
whatever quote character the user had already started typing. -/
def json5PropertyInsertSnippet (rawWord value : String) : String :=
  if jsStartsWith rawWord "\"" then "\"" ++ value ++ "\""
  else if jsStartsWith rawWord "'" then "'" ++ value ++ "'"
  else value

/-- `getInsertTextForPlainText`: escape backslash, dollar and closing
brace so the rendered text is not read as snippet syntax. -/
def getInsertTextForPlainText (text : String) : String :=
  ⟨text.data.flatMap (fun c => if c = '\\' ∨ c = '$' ∨ c = '\x7d' then ['\\', c] else [c])⟩

/-- `getInsertTextForValue`: render the value with tab indentation; an
empty object or array renders as a bracket skeleton holding an inner
placeholder; any other rendering is snippet-escaped. -/
def getInsertTextForValue (value : JVal) (separatorAfter : String) : String :=
  let text := jsonStringifyTab value 0
  if text = "\x7b\x7d" then "\x7b#\x7b\x7d\x7d" ++ separatorAfter
  else if text = "[]" then "[#\x7b\x7d]" ++ separatorAfter
  else getInsertTextForPlainText (text ++ separatorAfter)

/-- `getInsertTextForGuessedValue`: wrap a guessed literal in a snippet
placeholder; a string value is quote-stripped, snippet-escaped and then
rewrapped in quotes around the placeholder. -/
def getInsertTextForGuessedValue (value : JVal) (separatorAfter : String) : String :=
  match value with
  | .null => "$\x7bnull\x7d" ++ separatorAfter
  | .obj _ => getInsertTextForValue value separatorAfter
  | .arr _ => getInsertTextForValue value separatorAfter
  | .str s =>
    let snippetValue : String := ⟨((jsonQuote s).data.drop 1).dropLast⟩
    let snippetValue := getInsertTextForPlainText snippetValue
    "\"$\x7b" ++ snippetValue ++ "\x7d\"" ++ separatorAfter
  | .num n => "$\x7b" ++ toString n ++ "\x7d" ++ separatorAfter
  | .bool b => "$\x7b" ++ (if b then "true" else "false") ++ "\x7d" ++ separatorAfter

/-- JS falsiness of the optional snippet string (`undefined` or `""`). -/
def ofalsyStr (v : Option String) : Bool :=
  match v with
  | none => true
  | some s => s == ""

/-- The `enum` step of the `value` / `nValueProposals` bookkeeping in
`getInsertTextForProperty` (its guard is
`!value && propertySchema.enum.length === 1`, and the count grows by
the number of enum members). -/
def enumProposalStep (ps : JVal) (vn : Option String × Nat) : Option String × Nat :=
  match jget ps "enum" with
  | some (.arr es) =>
    ((if ofalsyStr vn.1 ∧ es.length = 1 then
        es.head?.map (fun e => getInsertTextForGuessedValue e "")
      else vn.1), vn.2 + es.length)
  | _ => vn

/-- The `const` step of the same bookkeeping (guard
`typeof propertySchema.const !== "undefined"`, then `!value`). -/
def constProposalStep (ps : JVal) (vn : Option String × Nat) : Option String × Nat :=
  match jget ps "const" with
  | some c =>
    ((if ofalsyStr vn.1 then some (getInsertTextForGuessedValue c "") else vn.1), vn.2 + 1)
  | none => vn

/-- The `examples` step of the same bookkeeping (guard
`Array.isArray(examples) && examples.length`, then `!value`). -/
def examplesProposalStep (ps : JVal) (vn : Option String × Nat) : Option String × Nat :=
  match jget ps "examples" with
  | some (.arr (e :: es)) =>
    ((if ofalsyStr vn.1 then some (getInsertTextForGuessedValue e "") else vn.1),
      vn.2 + (e :: es).length)
  | _ => vn

/-- The typed skeleton fallback of `getInsertTextForProperty`, reached
only when `value === undefined && nValueProposals === 0`. -/
def typeSkeleton (isJSON5 : Bool) (ps : JVal) : String :=
  let t0 : Option JVal :=
    match jget ps "type" with
    | some (.arr ts) => ts.head?
    | other => other
  let t1 : Option JVal :=
    if otruthy t0 then t0
    else if otruthy (jget ps "properties") then some (.str "object")
    else if otruthy (jget ps "items") then some (.str "array")
    else t0
  match t1 with
  | some (.str "boolean") => "#\x7b\x7d"
  | some (.str "string") => if isJSON5 then "'#\x7b\x7d'" else "\"#\x7b\x7d\""
  | some (.str "object") => "\x7b#\x7b\x7d\x7d"
  | some (.str "array") => "[#\x7b\x7d]"
  | some (.str "number") => "#\x7b0\x7d"
  | some (.str "integer") => "#\x7b0\x7d"
  | some (.str "null") => "#\x7bnull\x7d"
  | _ => "#\x7b\x7d"

/-- The value-placeholder computation of `getInsertTextForProperty`
after the key and colon are emitted: a defined `default` wins outright
(the `else` chain over `enum`, `const`, `examples` is skipped and the
count stays 1); otherwise the three steps run in order, the typed
skeleton covers the no-proposal case, and the final guard
`!value || nValueProposals > 1` collapses ambiguity to `#\x7b\x7d`.
The input is the already reference-expanded property schema. (In JS the
surrounding guard is `typeof propertySchema === "object"`, which an
array also passes; every field read on an array yields `undefined`,
which `jget` models.) -/
def propertyValuePlaceholder (isJSON5 : Bool) (propertySchema : Option JVal) : String :=
  let vn : Option String × Nat :=
    match propertySchema with
    | some ps =>
      if jsTypeofObject ps then
        match jget ps "default" with
        | some d => (some (getInsertTextForGuessedValue d ""), 1)
        | none =>
          let vn := examplesProposalStep ps (constProposalStep ps (enumProposalStep ps (none, 0)))
          if vn.1 = none ∧ vn.2 = 0 then (some (typeSkeleton isJSON5 ps), vn.2) else vn
      else (none, 0)
    | none => (none, 0)
  if ofalsyStr vn.1 ∨ vn.2 > 1 then "#\x7b\x7d" else vn.1.getD ""

/-- Characterization (following the spec's counting) of the number of
non-`default` candidate proposals `getInsertTextForProperty` counts:
the `enum` members, a defined `const`, and the members of a non-empty
`examples` array. -/
def nonDefaultProposalCount (ps : JVal) : Nat :=
  (match jget ps "enum" with | some (.arr es) => es.length | _ => 0)
  + (match jget ps "const" with | some _ => 1 | none => 0)
  + (match jget ps "examples" with | some (.arr (e :: es)) => (e :: es).length | _ => 0)

/-- `getInsertTextForProperty`: the quoted key in the mode-appropriate
style, then (when `addValue` is set) a colon and the value placeholder.
The property schema is reference-expanded against the root first. -/
def getInsertTextForProperty (schemaRoot : JVal) (isJSON5 : Bool) (key : String)
    (addValue : Bool) (rawWord : String) (propertySchema : Option JVal) : String :=
  let propertySchema := propertySchema.map (fun p => expandSchemaProperty p schemaRoot)
  let resultText := if isJSON5 then json5PropertyInsertSnippet rawWord key else "\"" ++ key ++ "\""
  if !addValue then resultText
  else resultText ++ ": " ++ propertyValuePlaceholder isJSON5 propertySchema

/-- A value stored in an object field list is smaller than the object. -/
theorem sizeOf_oget {fields : List (String × JVal)} {k : String} {v : JVal}
    (h : oget fields k = some v) : sizeOf v < sizeOf (JVal.obj fields) := by
  unfold oget at h
  cases hf : fields.find? (fun p => p.1 == k) with
  | none => rw [hf] at h; simp at h
  | some p =>
    rw [hf] at h
    simp at h
    have hm := List.mem_of_find?_eq_some hf
    have hs := List.sizeOf_lt_of_mem hm
    cases p with
    | mk k1 v1 =>
      simp at h
      subst h
      simp only [Prod.mk.sizeOf_spec] at hs
      simp only [JVal.obj.sizeOf_spec]
      omega

/-- A value read off a schema object with `jget` is smaller than it. -/
theorem sizeOf_jget {s : JVal} {k : String} {v : JVal} (h : jget s k = some v) :
    sizeOf v < sizeOf s := by
  unfold jget at h
  cases s with
  | obj fields => exact sizeOf_oget h
  | null => simp at h
  | bool b => simp at h
  | num n => simp at h
  | str s => simp at h
  | arr xs => simp at h

/-- `schema.type?.toString()` as stored on value proposals (optional
chaining returns `undefined` for both `undefined` and `null`). -/
def typeFieldToString (t : Option JVal) : Option String :=
  match t with
  | none => none
  | some .null => none
  | some v => some (jsToStr v)

/-- The `schema.description` string passed to a proposal's `info`. -/
def descriptionOf (s : JVal) : Option String :=
  match jget s "description" with
  | some (.str d) => some d
  | _ => none

/-- `addEnumValueCompletions`: a defined `const` and every `enum` array
member become literal value proposals labelled by their JSON rendering. -/
def addEnumValueCompletions (dedupe : Bool) (schema : JVal) (coll : Collector) : Collector :=
  let coll :=
    match jget schema "const" with
    | some c =>
      cadd dedupe coll
        { label := jsonStringify c, apply := none,
          ctype := typeFieldToString (jget schema "type"), detail := none,
          info := descriptionOf schema }
    | none => coll
  match jget schema "enum" with
  | some (.arr es) =>
    es.foldl (fun coll e =>
      cadd dedupe coll
        { label := jsonStringify e, apply := none,
          ctype := typeFieldToString (jget schema "type"), detail := none,
          info := descriptionOf schema }) coll
  | _ => coll

/-- The `for (let i = arrayDepth; i > 0; i--)` wrapping of a default or
example value into one singleton array per array level. -/
def wrapInArrays (v : JVal) (n : Nat) : JVal :=
  match n with
  | 0 => v
  | m + 1 => wrapInArrays (.arr [v]) m

/-- The non-recursive part of `addDefaultValueCompletions`: the
`default` proposal (value wrapped for the current array depth) and the
`examples` proposals, returning the collector together with the
`hasProposals` flag. -/
def addDefaultBase (dedupe : Bool) (schema : JVal) (coll : Collector) (arrayDepth : Nat) :
    Collector × Bool :=
  let st : Collector × Bool :=
    match jget schema "default" with
    | some d =>
      let type := if arrayDepth > 0 then some (JVal.str "array") else jget schema "type"
      (cadd dedupe coll
        { label := jsonStringify (wrapInArrays d arrayDepth), apply := none,
          ctype := typeFieldToString type, detail := some "Default value", info := none }, true)
    | none => (coll, false)
  match jget schema "examples" with
  | some (.arr es) =>
    (es.foldl (fun c e =>
      let type := if arrayDepth > 0 then some (JVal.str "array") else jget schema "type"
      cadd dedupe c
        { label := jsonStringify (wrapInArrays e arrayDepth), apply := none,
          ctype := typeFieldToString type, detail := none, info := none }) st.1,
      st.2 || !es.isEmpty)
  | _ => st

/-- `addDefaultValueCompletions`: the `default` and `examples`
proposals; when neither contributed and `items` is a plain (non-array)
object schema, recurse one array level deeper — stopping at depth 5.
The guard `arrayDepth < 5` is what makes the recursion well founded
(the measure is `5 - arrayDepth`). (JS also lets a JSON `null` `items`
through its `typeof` test, but recursing on it reads fields of `null`
and throws; only the object case is reachable.) -/
def addDefaultValueCompletions (dedupe : Bool) (schema : JVal) (coll : Collector)
    (arrayDepth : Nat) : Collector :=
  let st := addDefaultBase dedupe schema coll arrayDepth
  match jget schema "items" with
  | some (.obj ifields) =>
    if h2 : st.2 = false ∧ arrayDepth < 5 then
      addDefaultValueCompletions dedupe (.obj ifields) st.1 (arrayDepth + 1)
    else st.1
  | _ => st.1
termination_by 5 - arrayDepth
decreasing_by omega

/-- Reference formulation for the depth bound claimed of
`addDefaultValueCompletions`: the same computation driven by an
explicit recursion budget, making no recursive call once the budget is
exhausted. A budget of `5 - arrayDepth` suffices exactly because the
source stops at depth 5. -/
def addDefaultValueCompletionsBounded (dedupe : Bool) (fuel : Nat) (schema : JVal)
    (coll : Collector) (arrayDepth : Nat) : Collector :=
  let st := addDefaultBase dedupe schema coll arrayDepth
  match fuel with
  | 0 => st.1
  | fuel' + 1 =>
    match jget schema "items" with
    | some (.obj ifields) =>
      if st.2 = false ∧ arrayDepth < 5 then
        addDefaultValueCompletionsBounded dedupe fuel' (.obj ifields) st.1 (arrayDepth + 1)
      else st.1
    | _ => st.1

/-- The `types[t] = true` insertion (a JS object used as a string set). -/
def addTypeKey (types : List String) (t : String) : List String :=
  if t ∈ types then types else types ++ [t]

/-- `collectTypes`: accumulate the possible primitive types declared by
one schema node — unless the node itself carries an `enum` array or a
defined `const`, which fully determine the allowed values. -/
def collectTypes (schema : JVal) (types : List String) : List String :=
  if ((match jget schema "enum" with | some (.arr _) => true | _ => false)
      || (jget schema "const").isSome) then
    types
  else
    match jget schema "type" with
    | some (.arr ts) => ts.foldl (fun acc t => addTypeKey acc (jsToStr t)) types
    | some tv => if jsTruthy tv then addTypeKey types (jsToStr tv) else types
    | none => types

/-- The state threaded through value-proposal synthesis: the collected
primitive-type set plus the collector. -/
abbrev ValueState := List String × Collector

/-- The branch array of a combinator member: `schema.allOf` (or
`anyOf` / `oneOf`) when `Array.isArray` accepts it, else the empty list
(the source's `forEach` then does nothing). -/
def combinatorLists (s : JVal) (key : String) : List JVal :=
  match jget s key with
  | some (.arr xs) => xs
  | _ => []

/-- A combinator branch list of an object fragment is smaller than it. -/
theorem sizeOf_combinatorLists (fields : List (String × JVal)) (key : String) :
    sizeOf (combinatorLists (JVal.obj fields) key) < sizeOf (JVal.obj fields) := by
  unfold combinatorLists
  cases h : jget (JVal.obj fields) key with
  | none =>
    show sizeOf ([] : List JVal) < sizeOf (JVal.obj fields)
    simp only [JVal.obj.sizeOf_spec]
    cases fields <;> simp
  | some v =>
    cases v with
    | arr xs =>
      show sizeOf xs < sizeOf (JVal.obj fields)
      have hlt := sizeOf_jget h
      simp only [JVal.arr.sizeOf_spec] at hlt
      omega
    | null =>
      show sizeOf ([] : List JVal) < sizeOf (JVal.obj fields)
      simp only [JVal.obj.sizeOf_spec]
      cases fields <;> simp
    | bool b =>
      show sizeOf ([] : List JVal) < sizeOf (JVal.obj fields)
      simp only [JVal.obj.sizeOf_spec]
      cases fields <;> simp
    | num nn =>
      show sizeOf ([] : List JVal) < sizeOf (JVal.obj fields)
      simp only [JVal.obj.sizeOf_spec]
      cases fields <;> simp
    | str u =>
      show sizeOf ([] : List JVal) < sizeOf (JVal.obj fields)
      simp only [JVal.obj.sizeOf_spec]
      cases fields <;> simp
    | obj fs =>
      show sizeOf ([] : List JVal) < sizeOf (JVal.obj fields)
      simp only [JVal.obj.sizeOf_spec]
      cases fields <;> simp

mutual

/-- `addSchemaValueCompletions`: enum/const proposals, default/example
proposals and type collection for this node, then recursion into every
`allOf`, `anyOf` and `oneOf` branch, in that order (the source guards
each recursion with `Array.isArray`; a missing or non-array member is
the empty branch list). A fragment that is not a plain object
contributes nothing (in JS the guard is `typeof schema === "object"`;
an array passes it but every field read yields `undefined`, so it
contributes nothing either). -/
def addSchemaValueCompletions (dedupe : Bool) (schema : JVal) (st : ValueState) : ValueState :=
  match hs : schema with
  | .obj _ =>
    let st : ValueState := (st.1, addEnumValueCompletions dedupe schema st.2)
    let st : ValueState := (st.1, addDefaultValueCompletions dedupe schema st.2 0)
    let st : ValueState := (collectTypes schema st.1, st.2)
    let st : ValueState := addSchemaListCompletions dedupe (combinatorLists schema "allOf") st
    let st : ValueState := addSchemaListCompletions dedupe (combinatorLists schema "anyOf") st
    addSchemaListCompletions dedupe (combinatorLists schema "oneOf") st
  | _ => st
termination_by sizeOf schema
decreasing_by
  all_goals subst hs
  · exact sizeOf_combinatorLists _ _
  · exact sizeOf_combinatorLists _ _
  · exact sizeOf_combinatorLists _ _

/-- `forEach` of `addSchemaValueCompletions` over a combinator list. -/
def addSchemaListCompletions (dedupe : Bool) (l : List JVal) (st : ValueState) : ValueState :=
  match l with
  | [] => st
  | x :: xs => addSchemaListCompletions dedupe xs (addSchemaValueCompletions dedupe x st)
termination_by sizeOf l
decreasing_by
  all_goals simp only [List.cons.sizeOf_spec]
  · omega
  · omega

end

/-- A fuel-driven structural mirror of `addSchemaValueCompletions`
(the combinator `forEach` loops written as `List.foldl`), used to
evaluate the well-founded original on concrete schemas: with fuel at
least `sizeOf schema` the two agree. -/
def addSchemaValueCompletionsB (fuel : Nat) (dedupe : Bool) : JVal → ValueState → ValueState :=
  match fuel with
  | 0 => fun _ st => st
  | fuel' + 1 => fun schema st =>
    match schema with
    | .obj _ =>
      let st : ValueState := (st.1, addEnumValueCompletions dedupe schema st.2)
      let st : ValueState :=
        (st.1, addDefaultValueCompletionsBounded dedupe 5 schema st.2 0)
      let st : ValueState := (collectTypes schema st.1, st.2)
      let st : ValueState := (combinatorLists schema "allOf").foldl
        (fun acc x => addSchemaValueCompletionsB fuel' dedupe x acc) st
      let st : ValueState := (combinatorLists schema "anyOf").foldl
        (fun acc x => addSchemaValueCompletionsB fuel' dedupe x acc) st
      (combinatorLists schema "oneOf").foldl
        (fun acc x => addSchemaValueCompletionsB fuel' dedupe x acc) st
    | _ => st

/-- Whether one schema node ITSELF (ignoring nesting) contributes the
primitive type `t` to the collected type set: the node must carry no
`enum` array and no `const`, and its `type` member must mention `t`
(directly, or as an element of a type array). -/
def nodeContributesType (s : JVal) (t : String) : Bool :=
  if ((match jget s "enum" with | some (.arr _) => true | _ => false)
      || (jget s "const").isSome) then false
  else
    match jget s "type" with
    | some (.arr ts) => ts.any (fun tv => jsToStr tv == t)
    | some tv => jsTruthy tv && (jsToStr tv == t)
    | none => false

mutual

/-- Whether some node of the fragment — itself or any node reached
through `allOf` / `anyOf` / `oneOf` — contributes the type `t` on its
own level (suppression by `enum`/`const` is per node, not global). -/
def typeContributedAnywhere (s : JVal) (t : String) : Bool :=
  match hs : s with
  | .obj _ =>
    nodeContributesType s t
    || typeContributedList (combinatorLists s "allOf") t
    || typeContributedList (combinatorLists s "anyOf") t
    || typeContributedList (combinatorLists s "oneOf") t
  | _ => false
termination_by sizeOf s
decreasing_by
  all_goals subst hs
  · exact sizeOf_combinatorLists _ _
  · exact sizeOf_combinatorLists _ _
  · exact sizeOf_combinatorLists _ _

/-- `typeContributedAnywhere` over a combinator branch list. -/
def typeContributedList (l : List JVal) (t : String) : Bool :=
  match l with
  | [] => false
  | x :: xs => typeContributedAnywhere x t || typeContributedList xs t
termination_by sizeOf l
decreasing_by
  all_goals simp only [List.cons.sizeOf_spec]
  · omega
  · omega

end

mutual

/-- The claim's suppression condition: an `enum` array or `const`
appearing ANYWHERE in the fragment, including inside its `allOf` /
`anyOf` / `oneOf` branches. -/
def enumOrConstAnywhere (s : JVal) : Bool :=
  match hs : s with
  | .obj _ =>
    (match jget s "enum" with | some (.arr _) => true | _ => false)
    || (jget s "const").isSome
    || enumOrConstAnywhereList (combinatorLists s "allOf")
    || enumOrConstAnywhereList (combinatorLists s "anyOf")
    || enumOrConstAnywhereList (combinatorLists s "oneOf")
  | _ => false
termination_by sizeOf s
decreasing_by
  all_goals subst hs
  · exact sizeOf_combinatorLists _ _
  · exact sizeOf_combinatorLists _ _
  · exact sizeOf_combinatorLists _ _

/-- `enumOrConstAnywhere` over a combinator branch list. -/
def enumOrConstAnywhereList (l : List JVal) : Bool :=
  match l with
  | [] => false
  | x :: xs => enumOrConstAnywhere x || enumOrConstAnywhereList xs
termination_by sizeOf l
decreasing_by
  all_goals simp only [List.cons.sizeOf_spec]
  · omega
  · omega

end

/-- `addBooleanValueCompletion`. -/
def addBooleanValueCompletion (value : Bool) (coll : Collector) : Collector :=
  coll.add
    { label := if value then "true" else "false", apply := none,
      ctype := some "boolean", detail := none, info := none }

/-- `addNullValueCompletion`. -/
def addNullValueCompletion (coll : Collector) : Collector :=
  coll.add
    { label := "null", apply := none, ctype := some "null", detail := none, info := none }

/-- The syntactic context of a value completion, as recovered by the
external syntax-tree helpers: whether the enclosing node is an array,
the parent property key (when the value belongs to a named property),
and — when a primitive value node sits under the cursor — the index the
external `findNodeIndexInArrayNode` reports for it. -/
structure ValueCtx where
  isArrayNode : Bool
  parentKey : Option String
  foundIdx : Option Int
deriving DecidableEq

/-- The array branch of `getValueCompletions` for one fragment: tuple
`items` select the schema at the element's index, a single `items`
schema applies to every element; with a truthy `uniqueItems` the
additions are routed through the dedupe wrapper built inline there. -/
def arrayValueBranch (ctx : ValueCtx) (s : JVal) (st : ValueState) : ValueState :=
  match jget s "items" with
  | some items =>
    if ctx.isArrayNode && jsTruthy items then
      let dedupe := otruthy (jget s "uniqueItems")
      match items with
      | .arr itemsArr =>
        let arrayIndex : Nat :=
          match ctx.foundIdx with
          | some i => if i ≥ 0 then i.toNat else 0
          | none => 0
        match itemsArr[arrayIndex]? with
        | some itemSchema =>
          if jsTruthy itemSchema then addSchemaValueCompletions dedupe itemSchema st else st
        | none => st
      | _ => addSchemaValueCompletions dedupe items st
    else st
  | none => st

/-- The property-value branch of `getValueCompletions` for one fragment:
exact `properties` match first; otherwise the `patternProperties`
entries whose (externally compiled) regular expression matches the
parent key; otherwise a truthy `additionalProperties` when no pattern
matched. `rt pattern key` stands for the external
`extendedRegExp(pattern)?.test(key)`; `false` also covers a pattern that
failed to compile. (JS objects have unique keys, so iterating the
`patternProperties` pairs agrees with `Object.keys` plus indexing.)
The three statements of the branch are split into the named steps
below, threading the `propertyMatched` flag exactly as the source does.
This is the exact `properties` lookup. -/
def exactPropertyStep (parentKey : String) (s : JVal) (st : ValueState) : ValueState × Bool :=
  match jget s "properties" with
  | some props =>
    if jsTruthy props then
      match jget props parentKey with
      | some pSchema =>
        if jsTruthy pSchema then (addSchemaValueCompletions false pSchema st, true)
        else (st, false)
      | none => (st, false)
    else (st, false)
  | none => (st, false)

/-- The `patternProperties` loop of the property-value branch: run only
when nothing matched yet; every pair whose regular expression matches
sets the flag and (when its schema is truthy) contributes. -/
def patternPropertiesStep (rt : String → String → Bool) (parentKey : String) (s : JVal)
    (stm : ValueState × Bool) : ValueState × Bool :=
  match jget s "patternProperties" with
  | some pp =>
    if jsTruthy pp && !stm.2 then
      match pp with
      | .obj ppf =>
        ppf.foldl (fun acc kv =>
          if rt kv.1 parentKey then
            ((match oget ppf kv.1 with
              | some pSchema =>
                if jsTruthy pSchema then addSchemaValueCompletions false pSchema acc.1
                else acc.1
              | none => acc.1), true)
          else acc) stm
      | _ => stm
    else stm
  | none => stm

/-- The `additionalProperties` fallback of the property-value branch,
consulted only when nothing matched. -/
def additionalPropertiesStep (s : JVal) (stm : ValueState × Bool) : ValueState :=
  match jget s "additionalProperties" with
  | some ap => if jsTruthy ap && !stm.2 then addSchemaValueCompletions false ap stm.1 else stm.1
  | none => stm.1

/-- The full property-value branch: the three steps in source order. -/
def propertyValueBranch (rt : String → String → Bool) (parentKey : String) (s : JVal)
    (st : ValueState) : ValueState :=
  additionalPropertiesStep s (patternPropertiesStep rt parentKey s (exactPropertyStep parentKey s st))

/-- The `patternProperties` member pairs of a fragment (empty when the
member is absent or not an object). -/
def patternPropertyFields (s : JVal) : List (String × JVal) :=
  match jget s "patternProperties" with
  | some (.obj ppf) => ppf
  | _ => []

/-- The truthy exact `properties` match for the parent key, when any. -/
def exactPropertyHit (parentKey : String) (s : JVal) : Option JVal :=
  match jget s "properties" with
  | some props =>
    if jsTruthy props then
      match jget props parentKey with
      | some pSchema => if jsTruthy pSchema then some pSchema else none
      | none => none
    else none
  | none => none

/-- The amended formulation of the property-value branch, following the
corrected claim: an exact truthy `properties` hit short-circuits;
otherwise EVERY `patternProperties` entry whose regular expression
matches the parent key contributes, in declaration order (no
first-match short-circuit); `additionalProperties` is consulted exactly
when no pattern matched. -/
def propertyValueBranchAllMatches (rt : String → String → Bool) (parentKey : String) (s : JVal)
    (st : ValueState) : ValueState :=
  match exactPropertyHit parentKey s with
  | some pSchema => addSchemaValueCompletions false pSchema st
  | none =>
    let ms := (patternPropertyFields s).filter (fun kv => rt kv.1 parentKey)
    let st1 := ms.foldl (fun acc kv =>
      match oget (patternPropertyFields s) kv.1 with
      | some pSchema =>
        if jsTruthy pSchema then addSchemaValueCompletions false pSchema acc else acc
      | none => acc) st
    if ms.isEmpty then
      match jget s "additionalProperties" with
      | some ap => if jsTruthy ap then addSchemaValueCompletions false ap st1 else st1
      | none => st1
    else st1

/-- One iteration of the fragment loop in `getValueCompletions`: the
array branch, then (when the value belongs to a named property) the
property-value branch, then the boolean and null literal proposals
keyed on the type set collected so far. -/
def processValueFragment (rt : String → String → Bool) (ctx : ValueCtx) (s : JVal)
    (st : ValueState) : ValueState :=
  let st := arrayValueBranch ctx s st
  let st :=
    match ctx.parentKey with
    | some parentKey => propertyValueBranch rt parentKey s st
    | none => st
  let st :=
    if "boolean" ∈ st.1 then
      (st.1, addBooleanValueCompletion false (addBooleanValueCompletion true st.2))
    else st
  if "null" ∈ st.1 then (st.1, addNullValueCompletion st.2) else st

/-- The `for (const s of schemas)` loop of `getValueCompletions`: a
fragment that is not `typeof "object"` returns from the whole function,
so every fragment after it is skipped. -/
def valueFragmentsLoop (rt : String → String → Bool) (ctx : ValueCtx) :
    List JVal → ValueState → ValueState
  | [], st => st
  | s :: rest, st =>
    if jsTypeofObject s then valueFragmentsLoop rt ctx rest (processValueFragment rt ctx s st)
    else st

/-- The fragment-processing body of `getValueCompletions` (after the
external syntax-tree walk identified the context and `getSchemas`
produced the fragments): it runs only for an array node or for the
value of a named property. -/
def getValueCompletionsCore (rt : String → String → Bool) (ctx : ValueCtx)
    (schemas : List JVal) (st : ValueState) : ValueState :=
  if ctx.parentKey.isSome || ctx.isArrayNode then valueFragmentsLoop rt ctx schemas st
  else st

/-- One `properties` entry turned into a property-name proposal in
`getPropertyCompletions` (the external `snippetCompletion` wrapper keeps
the label and snippet text and is modelled as the identity; `type` and
`description` are typed as strings by `JSONSchema7`). -/
def propertyEntryCompletion (root : JVal) (isJSON5 : Bool) (addValue : Bool) (rawWord : String)
    (key : String) (value : JVal) : Completion :=
  { label := key,
    apply := some (getInsertTextForProperty root isJSON5 key addValue rawWord (some value)),
    ctype := some "property",
    detail := some (match jget value "type" with
      | none => ""
      | some .null => ""
      | some t => jsToStr t),
    info := some (match jget value "description" with
      | none => ""
      | some .null => ""
      | some d => jsToStr d) }

/-- One fragment's contribution in `getPropertyCompletions`: every
`properties` entry that is itself `typeof "object"`, then the
`propertyNames.enum` members and `propertyNames.const`. -/
def processPropertyFragment (root : JVal) (isJSON5 : Bool) (addValue : Bool) (rawWord : String)
    (s : JVal) (coll : Collector) : Collector :=
  let coll :=
    match jget s "properties" with
    | some (.obj props) =>
      props.foldl (fun coll kv =>
        if jsTypeofObject kv.2 then
          coll.add (propertyEntryCompletion root isJSON5 addValue rawWord kv.1 kv.2)
        else coll) coll
    | _ => coll
  match jget s "propertyNames" with
  | some pn =>
    if jsTypeofObject pn then
      let coll :=
        match jget pn "enum" with
        | some (.arr vs) =>
          vs.foldl (fun coll v =>
            match (match v with | .null => none | _ => some (jsToStr v)) with
            | some l =>
              if l != "" then
                coll.add
                  { label := l,
                    apply := some (getInsertTextForProperty root isJSON5 l addValue rawWord none),
                    ctype := some "property", detail := none, info := none }
              else coll
            | none => coll) coll
        | _ => coll
      match jget pn "const" with
      | some cv =>
        if jsTruthy cv then
          coll.add
            { label := jsToStr cv,
              apply := some (getInsertTextForProperty root isJSON5 (jsToStr cv) addValue rawWord none),
              ctype := some "property", detail := none, info := none }
        else coll
      | none => coll
    else coll
  | none => coll

/-- The `schemas.forEach` loop of `getPropertyCompletions`: a fragment
that is not `typeof "object"` is skipped (the callback `return` only
continues the loop), and the remaining fragments still contribute. -/
def propertyFragmentsLoop (root : JVal) (isJSON5 : Bool) (addValue : Bool) (rawWord : String)
    (schemas : List JVal) (coll : Collector) : Collector :=
  schemas.foldl (fun coll s =>
    if jsTypeofObject s then processPropertyFragment root isJSON5 addValue rawWord s coll
    else coll) coll

/-- `subSchema.name === "UnknownPropertyError"`. -/
def isUnknownPropertyErrorNode (s : JVal) : Bool :=
  match jget s "name" with
  | some (.str n) => n == "UnknownPropertyError"
  | _ => false

/-- `subSchema.type === "undefined"` (the literal string). -/
def isTypeUndefinedNode (s : JVal) : Bool :=
  match jget s "type" with
  | some (.str t) => t == "undefined"
  | _ => false

/-- The fallback test in `getSchemas`: retry at the parent pointer when
the resolved node is falsy (`undefined`, or a boolean `false` schema),
carries the `UnknownPropertyError` name, carries a truthy `enum` (bare
or not), or has `type === "undefined"`. -/
def shouldFallback (subSchema : Option JVal) : Bool :=
  match subSchema with
  | none => true
  | some s =>
    !jsTruthy s || isUnknownPropertyErrorNode s || otruthy (jget s "enum")
      || isTypeUndefinedNode s

/-- The trigger condition exactly as the claim words it: resolution
failed, an unknown-property error, a BARE enum-only node (`enum` is the
node's only member), or `type === "undefined"`. Stated for comparison
with the source's `shouldFallback`. -/
def claimFallbackTrigger (subSchema : Option JVal) : Bool :=
  match subSchema with
  | none => true
  | some s =>
    isUnknownPropertyErrorNode s
    || (match s with
        | .obj fields => fields.length == 1 && (oget fields "enum").isSome
        | _ => false)
    || isTypeUndefinedNode s

/-- `isJsonError`: the resolver library marks its errors `type:"error"`. -/
def isJsonError (s : JVal) : Bool :=
  match jget s "type" with
  | some (.str t) => t == "error"
  | _ => false

/-- `getSchemas`, with the external pointer resolver (the bundled
`json-schema-library` wrapper `getSchema`, not among the sources here)
abstracted as `resolve`: resolve the pointer, retry once at the parent
pointer (last segment stripped, slash kept) when `shouldFallback`
fires, short-circuit the root pointer to the root schema, drop error
nodes, and expand the first combinator found in the fixed order
`allOf`, `oneOf`, `anyOf`. (When even the retried resolution yields
`undefined`, the JS code would throw on the `isJsonError` field read;
that dead end is modelled as no fragments.) -/
def getSchemas (resolve : String → Option JVal) (rootSchema : JVal) (pointer0 : String) :
    List JVal :=
  let subSchema := resolve pointer0
  let pst : String × Option JVal :=
    if shouldFallback subSchema then
      let p := stripLastPointerSegment pointer0
      (p, resolve p)
    else (pointer0, subSchema)
  if pst.1 = "" ∨ pst.1 = "/" then [rootSchema]
  else
    match pst.2 with
    | none => []
    | some sub =>
      if isJsonError sub then []
      else
        match jget sub "allOf" with
        | some (.arr xs) => sub :: xs.map (fun x => expandSchemaProperty x rootSchema)
        | _ =>
          match jget sub "oneOf" with
          | some (.arr xs) => sub :: xs.map (fun x => expandSchemaProperty x rootSchema)
          | _ =>
            match jget sub "anyOf" with
            | some (.arr xs) => sub :: xs.map (fun x => expandSchemaProperty x rootSchema)
            | _ => [sub]

/-- The continuation of `getSchemas` after the fallback decision: one
resolution of the given pointer, the root-pointer short-circuit, the
error drop, and the expansion of the first combinator found. Stated
separately so the fallback can be proven to amount to one retried
resolution at the parent pointer. -/
def getSchemasResolved (resolve : String → Option JVal) (rootSchema : JVal)
    (pointer : String) : List JVal :=
  if pointer = "" ∨ pointer = "/" then [rootSchema]
  else
    match resolve pointer with
    | none => []
    | some sub =>
      if isJsonError sub then []
      else
        match jget sub "allOf" with
        | some (.arr xs) => sub :: xs.map (fun x => expandSchemaProperty x rootSchema)
        | _ =>
          match jget sub "oneOf" with
          | some (.arr xs) => sub :: xs.map (fun x => expandSchemaProperty x rootSchema)
          | _ =>
            match jget sub "anyOf" with
            | some (.arr xs) => sub :: xs.map (fun x => expandSchemaProperty x rootSchema)
            | _ => [sub]

/-- A collector interaction: one `reserve` or one `add` call. -/
inductive CollectorOp where
| reserveOp (key : String) : CollectorOp
| addOp (c : Completion) : CollectorOp
deriving DecidableEq

/-- One collector interaction applied to the collector state. -/
def applyOp (st : Collector) : CollectorOp → Collector
  | .reserveOp k => st.reserve k
  | .addOp c => st.add c

/-- A sequence of collector interactions applied left to right. -/
def applyOps (ops : List CollectorOp) (st : Collector) : Collector :=
  ops.foldl applyOp st

/-- The completion carried by the most recent `add` with this label. -/
def lastAddFor : List CollectorOp → String → Option Completion
  | [], _ => none
  | op :: rest, l =>
    match lastAddFor rest l with
    | some c => some c
    | none =>
      match op with
      | .addOp c => if c.label = l then some c else none
      | _ => none

/-! Supporting lemmas about the collector map and reservation set. -/

theorem find?_mapSet_self (m : List (String × Completion)) (k : String) (v : Completion) :
    (mapSet m k v).find? (fun p => p.1 == k) = some (k, v) := by
  unfold mapSet
  by_cases ha : m.any (fun p => p.1 == k) = true
  · simp only [ha, if_true, List.find?_map]
    have hpred :
        ((fun p => p.1 == k) ∘ (fun p => if p.1 == k then (k, v) else p) :
          String × Completion → Bool) = (fun p => p.1 == k) := by
      funext p
      by_cases h : p.1 = k <;> simp [h]
    rw [hpred]
    cases hf : m.find? (fun p => p.1 == k) with
    | none =>
      rw [List.find?_eq_none] at hf
      rw [List.any_eq_true] at ha
      obtain ⟨q, hq, hpq⟩ := ha
      exact absurd hpq (by simpa using hf q hq)
    | some q =>
      have hs := List.find?_some hf
      simp only [beq_iff_eq] at hs
      simp [hs]
  · simp only [ha, if_false, List.find?_append]
    have hnone : m.find? (fun p => p.1 == k) = none := by
      rw [List.find?_eq_none]
      intro x hx
      rw [List.any_eq_true] at ha
      exact fun hpx => ha ⟨x, hx, hpx⟩
    simp [hnone]

theorem find?_mapSet_ne (m : List (String × Completion)) (k k' : String) (v : Completion)
    (h : ¬ k' = k) :
    (mapSet m k v).find? (fun p => p.1 == k') = m.find? (fun p => p.1 == k') := by
  have h' : ¬ k = k' := fun hh => h hh.symm
  unfold mapSet
  by_cases ha : m.any (fun p => p.1 == k) = true
  · simp only [ha, if_true, List.find?_map]
    have hpred :
        ((fun p => p.1 == k') ∘ (fun p => if p.1 == k then (k, v) else p) :
          String × Completion → Bool) = (fun p => p.1 == k') := by
      funext p
      by_cases hp : p.1 = k
      · simp [hp, h']
      · simp [hp]
    rw [hpred]
    cases hf : m.find? (fun p => p.1 == k') with
    | none => simp
    | some q =>
      have hq := List.find?_some hf
      simp only [beq_iff_eq] at hq
      simp [hq, h]
  · simp only [ha, if_false, List.find?_append]
    simp [h']

theorem mem_setAdd_self (s : List String) (k : String) : k ∈ setAdd s k := by
  unfold setAdd
  split
  · assumption
  · simp

theorem lookup_add_self (c : Collector) (cmp : Completion) (h : cmp.label ∉ c.reservedKeys) :
    (c.add cmp).lookup cmp.label = some cmp := by
  unfold Collector.add Collector.lookup
  simp [h, find?_mapSet_self]

theorem lookup_add_ne (c : Collector) (cmp : Completion) (l : String) (h : ¬ l = cmp.label) :
    (c.add cmp).lookup l = c.lookup l := by
  unfold Collector.add Collector.lookup
  by_cases hr : cmp.label ∈ c.reservedKeys
  · simp [hr]
  · simp [hr, find?_mapSet_ne _ _ _ _ h]

theorem reserved_applyOps_mono (ops : List CollectorOp) (st : Collector) (l : String)
    (h : l ∈ st.reservedKeys) : l ∈ (applyOps ops st).reservedKeys := by
  induction ops generalizing st with
  | nil => exact h
  | cons op rest ih =>
    apply ih
    cases op with
    | reserveOp k =>
      simp only [applyOp, Collector.reserve, setAdd]
      split
      · exact h
      · exact List.mem_append_left _ h
    | addOp c =>
      simp only [applyOp, Collector.add]
      split
      · exact h
      · exact h

theorem lookup_applyOps_of_reserved (ops : List CollectorOp) (st : Collector) (l : String)
    (hres : l ∈ st.reservedKeys) :
    (applyOps ops st).lookup l = st.lookup l := by
  induction ops generalizing st with
  | nil => rfl
  | cons op rest ih =>
    cases op with
    | reserveOp k =>
      rw [show applyOps (.reserveOp k :: rest) st = applyOps rest (st.reserve k) from rfl]
      rw [ih (st.reserve k) (by
        simp only [Collector.reserve, setAdd]
        split
        · exact hres
        · exact List.mem_append_left _ hres)]
      rfl
    | addOp c =>
      rw [show applyOps (.addOp c :: rest) st = applyOps rest (st.add c) from rfl]
      by_cases hlc : l = c.label
      · have hcres : c.label ∈ st.reservedKeys := hlc ▸ hres
        have : st.add c = st := by unfold Collector.add; simp [hcres]
        rw [this, ih st hres]
      · rw [ih (st.add c) (by unfold Collector.add; split <;> exact hres)]
        exact lookup_add_ne st c l hlc

theorem lookup_applyOps_no_add (ops : List CollectorOp) (st : Collector) (l : String)
    (hno : ∀ c, CollectorOp.addOp c ∈ ops → c.label ≠ l) :
    (applyOps ops st).lookup l = st.lookup l := by
  induction ops generalizing st with
  | nil => rfl
  | cons op rest ih =>
    have hrest : ∀ c, CollectorOp.addOp c ∈ rest → c.label ≠ l := fun c hc =>
      hno c (List.mem_cons_of_mem _ hc)
    cases op with
    | reserveOp k =>
      rw [show applyOps (.reserveOp k :: rest) st = applyOps rest (st.reserve k) from rfl]
      rw [ih (st.reserve k) hrest]
      rfl
    | addOp c =>
      rw [show applyOps (.addOp c :: rest) st = applyOps rest (st.add c) from rfl]
      rw [ih (st.add c) hrest]
      exact lookup_add_ne st c l (fun hh => hno c (List.mem_cons_self _ _) (hh ▸ rfl))

theorem lookup_applyOps_lastAdd (ops : List CollectorOp) (st : Collector) (l : String)
    (hnores : ∀ k, CollectorOp.reserveOp k ∈ ops → k ≠ l) (hst : l ∉ st.reservedKeys) :
    (applyOps ops st).lookup l =
      match lastAddFor ops l with
      | some c => some c
      | none => st.lookup l := by
  induction ops generalizing st with
  | nil => rfl
  | cons op rest ih =>
    have hrest : ∀ k, CollectorOp.reserveOp k ∈ rest → k ≠ l := fun k hk =>
      hnores k (List.mem_cons_of_mem _ hk)
    cases op with
    | reserveOp k =>
      have hkl : k ≠ l := hnores k (List.mem_cons_self _ _)
      rw [show applyOps (.reserveOp k :: rest) st = applyOps rest (st.reserve k) from rfl]
      have hst' : l ∉ (st.reserve k).reservedKeys := by
        simp only [Collector.reserve, setAdd]
        split
        · exact hst
        · simp
          exact ⟨hst, fun he => hkl he.symm⟩
      rw [ih (st.reserve k) hrest hst']
      rw [show (st.reserve k).lookup l = st.lookup l from rfl]
      cases hl : lastAddFor rest l <;> simp [lastAddFor, hl]
    | addOp c =>
      rw [show applyOps (.addOp c :: rest) st = applyOps rest (st.add c) from rfl]
      have hst' : l ∉ (st.add c).reservedKeys := by
        unfold Collector.add
        split <;> exact hst
      rw [ih (st.add c) hrest hst']
      cases hl : lastAddFor rest l with
      | some c' => simp [lastAddFor, hl]
      | none =>
        by_cases hcl : c.label = l
        · have : (st.add c).lookup l = some c := by
            have := lookup_add_self st c (hcl ▸ hst)
            rwa [hcl] at this
          simp [lastAddFor, hl, this, hcl]
        · have : (st.add c).lookup l = st.lookup l :=
            lookup_add_ne st c l (fun hh => hcl hh.symm)
          simp [lastAddFor, hl, this, hcl]

/-- C7: within one completion request, a label passed to `reserve`
before any `add` bearing it never appears among the collector's final
proposals (reserve wins over every later add); a label never reserved
ends up mapped to the completion of its most recent `add` (last write
wins). -/
theorem c7_reserve_wins_and_last_add_wins :
    (∀ (ops1 ops2 : List CollectorOp) (l : String),
      (∀ c, CollectorOp.addOp c ∈ ops1 → c.label ≠ l) →
      (applyOps (ops1 ++ CollectorOp.reserveOp l :: ops2) emptyCollector).lookup l = none)
    ∧ (∀ (ops : List CollectorOp) (l : String) (c : Completion),
      (∀ k, CollectorOp.reserveOp k ∈ ops → k ≠ l) →
      lastAddFor ops l = some c →
      (applyOps ops emptyCollector).lookup l = some c) := by
  constructor
  · intro ops1 ops2 l hno
    have hsplit : applyOps (ops1 ++ .reserveOp l :: ops2) emptyCollector
        = applyOps ops2 ((applyOps ops1 emptyCollector).reserve l) := by
      unfold applyOps
      rw [List.foldl_append]
      rfl
    rw [hsplit]
    have hres : l ∈ ((applyOps ops1 emptyCollector).reserve l).reservedKeys :=
      mem_setAdd_self _ l
    rw [lookup_applyOps_of_reserved ops2 _ l hres]
    rw [show ((applyOps ops1 emptyCollector).reserve l).lookup l
        = (applyOps ops1 emptyCollector).lookup l from rfl]
    rw [lookup_applyOps_no_add ops1 emptyCollector l hno]
    rfl
  · intro ops l c hnores hlast
    rw [lookup_applyOps_lastAdd ops emptyCollector l hnores (by simp [emptyCollector])]
    simp [hlast]

/-- Witness for C7 at concrete interaction sequences. -/
theorem c7_reserve_wins_and_last_add_wins_witness :
    (applyOps ([] ++ CollectorOp.reserveOp "a" ::
        [CollectorOp.addOp ⟨"a", none, none, none, none⟩]) emptyCollector).lookup "a" = none
    ∧ (applyOps [CollectorOp.addOp ⟨"b", none, none, none, some "first"⟩,
        CollectorOp.addOp ⟨"b", none, none, none, some "second"⟩] emptyCollector).lookup "b"
        = some ⟨"b", none, none, none, some "second"⟩ := by
  constructor
  · exact c7_reserve_wins_and_last_add_wins.1 [] [CollectorOp.addOp ⟨"a", none, none, none, none⟩]
      "a" (fun c hc => by simp at hc)
  · exact c7_reserve_wins_and_last_add_wins.2 _ "b" _ (fun k hk => by simp at hk) rfl

/-- C8: prefix filtering of the collected proposals is monotonic (every
completion passing the filter for the longer typed prefix also passes
for any prefix of it, e.g. "ab" versus "a"), idempotent on a fixed
candidate set, and its test is exactly the case-sensitive literal match
of the unquoted label's start against the unquoted typed prefix. -/
theorem c8_filter_monotone_idempotent :
    (∀ (p1 p2 : String) (cands : List Completion), p1.data <+: p2.data →
      ∀ v ∈ filterByPrefix p2 cands, v ∈ filterByPrefix p1 cands)
    ∧ (∀ (p : String) (cands : List Completion),
      filterByPrefix p (filterByPrefix p cands) = filterByPrefix p cands)
    ∧ (∀ (p : String) (cands : List Completion) (v : Completion),
      v ∈ filterByPrefix p cands ↔
        v ∈ cands ∧ jsStartsWith (stripSurroundingQuotes v.label) p = true) := by
  refine ⟨?_, ?_, ?_⟩
  · intro p1 p2 cands hpre v hv
    rw [filterByPrefix, List.mem_filter] at hv ⊢
    refine ⟨hv.1, ?_⟩
    have h2 := hv.2
    unfold jsStartsWith at h2 ⊢
    rw [List.isPrefixOf_iff_prefix] at h2 ⊢
    exact hpre.trans h2
  · intro p cands
    unfold filterByPrefix
    rw [List.filter_filter]
    simp
  · intro p cands v
    unfold filterByPrefix
    exact List.mem_filter

/-- Witness for C8: the label "abc" passes the filter for the typed
prefix "ab", hence also for its prefix "a". -/
theorem c8_filter_monotone_idempotent_witness :
    Completion.mk "abc" none none none none ∈
      filterByPrefix "a" [Completion.mk "abc" none none none none] := by
  exact c8_filter_monotone_idempotent.1 "a" "ab" _ (by decide) _ (by decide)

/-- C10: when the resolved fragment sequence contains an entry that is
not `typeof "object"` (e.g. a boolean schema), the value-completion loop
returns immediately, so every fragment after it contributes nothing;
the property-completion loop instead skips the entry and still
processes the remaining fragments. -/
theorem c10_nonobject_fragment_handling :
    (∀ (rt : String → String → Bool) (ctx : ValueCtx) (pre : List JVal) (b : JVal)
      (post : List JVal) (st : ValueState), jsTypeofObject b = false →
      valueFragmentsLoop rt ctx (pre ++ b :: post) st = valueFragmentsLoop rt ctx pre st)
    ∧ (∀ (root : JVal) (isJSON5 addValue : Bool) (rawWord : String) (pre : List JVal)
      (b : JVal) (post : List JVal) (coll : Collector), jsTypeofObject b = false →
      propertyFragmentsLoop root isJSON5 addValue rawWord (pre ++ b :: post) coll
        = propertyFragmentsLoop root isJSON5 addValue rawWord (pre ++ post) coll) := by
  constructor
  · intro rt ctx pre b post st hb
    induction pre generalizing st with
    | nil => simp [valueFragmentsLoop, hb]
    | cons s rest ih =>
      simp only [List.cons_append, valueFragmentsLoop]
      split
      · exact ih _
      · rfl
  · intro root isJSON5 addValue rawWord pre b post coll hb
    unfold propertyFragmentsLoop
    rw [List.foldl_append, List.foldl_append, List.foldl_cons]
    simp [hb]

/-- Witness for C10 with a boolean `false` fragment between two object
fragments. -/
theorem c10_nonobject_fragment_handling_witness :
    valueFragmentsLoop (fun _ _ => false) ⟨false, some "k", none⟩
        ([JVal.obj []] ++ JVal.bool false ::
          [JVal.obj [("properties", JVal.obj [("k", JVal.obj [("const", JVal.num 7)])])]])
        ([], emptyCollector)
      = valueFragmentsLoop (fun _ _ => false) ⟨false, some "k", none⟩ [JVal.obj []]
        ([], emptyCollector)
    ∧ propertyFragmentsLoop (JVal.obj []) false true ""
        ([JVal.obj []] ++ JVal.bool false :: [JVal.obj []]) emptyCollector
      = propertyFragmentsLoop (JVal.obj []) false true "" ([JVal.obj []] ++ [JVal.obj []])
        emptyCollector := by
  constructor
  · exact c10_nonobject_fragment_handling.1 _ _ [JVal.obj []] (JVal.bool false) _ _ rfl
  · exact c10_nonobject_fragment_handling.2 _ _ _ _ [JVal.obj []] (JVal.bool false) _ _ rfl

/-! Supporting lemmas about object field lookup under filter, append,
delete and spread. -/

theorem find?_filter_of_imp {α} (l : List α) (p q : α → Bool) (h : ∀ a, p a = true → q a = true) :
    (l.filter q).find? p = l.find? p := by
  induction l with
  | nil => rfl
  | cons a rest ih =>
    by_cases hpa : p a = true
    · have hqa := h a hpa
      simp [List.filter_cons, hqa, List.find?_cons, hpa]
    · by_cases hqa : q a = true
      · simp [List.filter_cons, hqa, List.find?_cons, hpa, ih]
      · simp [List.filter_cons, hqa, List.find?_cons, hpa, ih]

theorem oget_eq_none_iff (l : List (String × JVal)) (k : String) :
    oget l k = none ↔ ∀ p ∈ l, ¬ p.1 = k := by
  unfold oget
  simp [List.find?_eq_none]

theorem oget_filter_of_imp (l : List (String × JVal)) (q : String × JVal → Bool) (k : String)
    (h : ∀ p : String × JVal, p.1 = k → q p = true) :
    oget (l.filter q) k = oget l k := by
  unfold oget
  rw [find?_filter_of_imp]
  intro a ha
  simp only [beq_iff_eq] at ha
  exact h a ha

theorem oget_append (A B : List (String × JVal)) (k : String) :
    oget (A ++ B) k = match oget A k with | some v => some v | none => oget B k := by
  unfold oget
  rw [List.find?_append]
  cases hA : A.find? (fun p => p.1 == k) <;> simp [hA]

theorem oget_odelete_self (fs : List (String × JVal)) (k : String) :
    oget (odelete fs k) k = none := by
  rw [odelete, oget_eq_none_iff]
  intro p hp
  rw [List.mem_filter] at hp
  have h2 := hp.2
  simp at h2
  exact h2

theorem oget_odelete_ne (fs : List (String × JVal)) (k k' : String) (h : ¬ k' = k) :
    oget (odelete fs k) k' = oget fs k' := by
  rw [odelete, oget_filter_of_imp]
  intro p hp
  rw [hp]
  simpa using h

theorem oget_spreadInto_obj (base : List (String × JVal)) (fs : List (String × JVal))
    (k : String) :
    oget (spreadInto base (.obj fs)) k =
      match oget fs k with
      | some v => some v
      | none => oget base k := by
  unfold spreadInto
  rw [oget_append]
  cases hf : oget fs k with
  | some v =>
    have hA : oget (base.filter (fun p => (oget fs p.1).isNone)) k = none := by
      rw [oget_eq_none_iff]
      intro p hp hpk
      rw [List.mem_filter] at hp
      have h2 := hp.2
      rw [hpk, hf] at h2
      simp at h2
    simp [hA, hf]
  | none =>
    have hA : oget (base.filter (fun p => (oget fs p.1).isNone)) k = oget base k := by
      rw [oget_filter_of_imp]
      intro p hp
      rw [hp, hf]
      rfl
    rw [hA]
    cases hb : oget base k <;> simp

/-- C1 counterexample: the claim says that on a key present in both
fragments the referencing fragment's value wins. Here the referencing
fragment narrows `type` to "number" while the referenced target says
"string"; the merge `\x7b ...property, ...refSchema \x7d` lets the
referenced fragment win, so the expansion keeps "string", refuting the
claimed precedence at this input. -/
theorem c1_counterexample :
    jget (expandSchemaProperty
        (.obj [("$ref", .str "#/definitions/X"), ("type", .str "number")])
        (.obj [("definitions",
          .obj [("X", .obj [("type", .str "string"), ("minLength", .num 1)])])]))
      "type" = some (.str "string")
    ∧ some (JVal.str "string") ≠ some (JVal.str "number") := by
  constructor
  · rfl
  · simp

/-- C1 amended: for a fragment carrying a truthy `$ref` whose target
resolves to an object, expansion returns a new fragment without the
`$ref` key in which, on any key present in both fragments, the
REFERENCED fragment's value wins (JS spread order), and the referencing
fragment's values survive exactly on the keys the target lacks; the
original fragment value is unchanged (the embedding is pure, and the
source builds a fresh object). -/
theorem c1_amended_ref_expansion (pfields : List (String × JVal)) (root : JVal) (r : String)
    (refFields : List (String × JVal))
    (href : oget pfields "$ref" = some (.str r)) (hr : r ≠ "")
    (htgt : getReferenceSchema root r = some (.obj refFields)) :
    ∃ resFields, expandSchemaProperty (.obj pfields) root = .obj resFields
      ∧ oget resFields "$ref" = none
      ∧ ∀ k, k ≠ "$ref" → oget resFields k =
          (match oget refFields k with
           | some v => some v
           | none => oget pfields k) := by
  refine ⟨odelete (spreadInto pfields (.obj refFields)) "$ref", ?_, ?_, ?_⟩
  · have hr' : (r != "") = true := by simpa using hr
    simp only [expandSchemaProperty, href, hr', if_true, htgt, jsTypeofObject]
  · exact oget_odelete_self _ _
  · intro k hk
    rw [oget_odelete_ne _ _ _ hk]
    exact oget_spreadInto_obj pfields refFields k

/-- Witness for the amended C1 at the counterexample's input. -/
theorem c1_amended_ref_expansion_witness :
    ∃ resFields, expandSchemaProperty
        (.obj [("$ref", JVal.str "#/definitions/X"), ("type", JVal.str "number")])
        (.obj [("definitions",
          JVal.obj [("X", JVal.obj [("type", JVal.str "string"), ("minLength", JVal.num 1)])])])
      = .obj resFields
      ∧ oget resFields "$ref" = none
      ∧ ∀ k, k ≠ "$ref" → oget resFields k =
          (match oget [("type", JVal.str "string"), ("minLength", JVal.num 1)] k with
           | some v => some v
           | none => oget [("$ref", JVal.str "#/definitions/X"), ("type", JVal.str "number")] k) := by
  exact c1_amended_ref_expansion _ _ "#/definitions/X" _ rfl (by decide) rfl

theorem addDefault_eq_bounded_aux (dedupe : Bool) (fuel : Nat) :
    ∀ (schema : JVal) (coll : Collector) (arrayDepth : Nat), fuel = 5 - arrayDepth →
    addDefaultValueCompletions dedupe schema coll arrayDepth
      = addDefaultValueCompletionsBounded dedupe fuel schema coll arrayDepth := by
  induction fuel with
  | zero =>
    intro schema coll d hd
    have hd5 : ¬ d < 5 := by omega
    rw [addDefaultValueCompletions, addDefaultValueCompletionsBounded]
    cases hi : jget schema "items" with
    | none => rfl
    | some items =>
      cases items <;> simp [hd5]
  | succ n ih =>
    intro schema coll d hd
    have hd5 : d < 5 := by omega
    rw [addDefaultValueCompletions, addDefaultValueCompletionsBounded]
    cases hi : jget schema "items" with
    | none => rfl
    | some items =>
      cases items with
      | obj ifields =>
        by_cases hp : (addDefaultBase dedupe schema coll d).2 = false
        · simp only [hp, hd5, and_true, true_and, dif_pos, if_pos]
          exact ih _ _ _ (by omega)
        · simp [hp]
      | null => rfl
      | bool b => rfl
      | num nn => rfl
      | str s => rfl
      | arr xs => rfl

/-- C9: recursive schema traversal terminates on every input. The
array-wrapping recursion of `addDefaultValueCompletions` stops at the
fixed depth bound 5: it computes the same collector as the variant
driven by an explicit recursion budget of `5 - arrayDepth` (and the
guard `arrayDepth < 5` is itself the well-founded measure of the
definition). `$ref` resolution performs a single pass with no
chain-following: a two-step reference chain resolves only one step —
the target's own `$ref` is merged away, not followed, so the transitive
target's fields are absent — and a direct self-referencing `$ref`
degrades to an unresolved empty fragment instead of looping or
overflowing the stack. -/
theorem c9_bounded_recursion :
    (∀ (dedupe : Bool) (schema : JVal) (coll : Collector) (arrayDepth : Nat),
      addDefaultValueCompletions dedupe schema coll arrayDepth
        = addDefaultValueCompletionsBounded dedupe (5 - arrayDepth) schema coll arrayDepth)
    ∧ expandSchemaProperty (.obj [("$ref", .str "#/definitions/B")])
        (.obj [("definitions", .obj
          [("B", .obj [("$ref", .str "#/definitions/C")]),
           ("C", .obj [("type", .str "string")])])]) = .obj []
    ∧ expandSchemaProperty (.obj [("$ref", .str "#/definitions/D")])
        (.obj [("definitions", .obj
          [("D", .obj [("$ref", .str "#/definitions/D")])])]) = .obj [] := by
  refine ⟨?_, rfl, rfl⟩
  intro dedupe schema coll arrayDepth
  exact addDefault_eq_bounded_aux dedupe (5 - arrayDepth) schema coll arrayDepth rfl

/-! Supporting lemmas for the snippet compiler: a guessed-value snippet
is never the empty (hence falsy) string, and step-count facts. -/

theorem ne_empty_iff_data (s : String) : s ≠ "" ↔ s.data ≠ [] := by
  constructor
  · intro h hd
    apply h
    cases s with
    | mk d => simp at hd; simp [hd]
  · intro h he
    subst he
    simp at h

theorem append_left_ne_empty (s t : String) (h : s ≠ "") : s ++ t ≠ "" := by
  rw [ne_empty_iff_data] at h ⊢
  rw [String.data_append]
  simp [h]

theorem plainText_ne_empty (s : String) (h : s ≠ "") : getInsertTextForPlainText s ≠ "" := by
  rw [ne_empty_iff_data] at h ⊢
  unfold getInsertTextForPlainText
  cases hd : s.data with
  | nil => exact absurd hd h
  | cons c rest =>
    simp only [hd, List.flatMap_cons]
    intro hcontra
    rw [List.append_eq_nil] at hcontra
    have := hcontra.1
    by_cases hc : c = '\\' ∨ c = '$' ∨ c = '\x7d' <;> simp [hc] at this

theorem stringifyTab_obj_ne_empty (fs : List (String × JVal)) :
    jsonStringifyTab (.obj fs) 0 ≠ "" := by
  cases fs with
  | nil => simp only [jsonStringifyTab]; decide
  | cons p rest =>
    simp only [jsonStringifyTab]
    exact append_left_ne_empty _ _ (append_left_ne_empty _ _ (append_left_ne_empty _ _
      (append_left_ne_empty _ _ (by decide))))

theorem stringifyTab_arr_ne_empty (xs : List JVal) :
    jsonStringifyTab (.arr xs) 0 ≠ "" := by
  cases xs with
  | nil => simp only [jsonStringifyTab]; decide
  | cons x rest =>
    simp only [jsonStringifyTab]
    exact append_left_ne_empty _ _ (append_left_ne_empty _ _ (append_left_ne_empty _ _
      (append_left_ne_empty _ _ (by decide))))

theorem guessedValue_ne_empty (v : JVal) (sep : String) :
    getInsertTextForGuessedValue v sep ≠ "" := by
  cases v with
  | null =>
    simp only [getInsertTextForGuessedValue]
    exact append_left_ne_empty _ _ (by decide)
  | bool b =>
    simp only [getInsertTextForGuessedValue]
    exact append_left_ne_empty _ _ (append_left_ne_empty _ _ (append_left_ne_empty _ _
      (by decide)))
  | num n =>
    simp only [getInsertTextForGuessedValue]
    exact append_left_ne_empty _ _ (append_left_ne_empty _ _ (append_left_ne_empty _ _
      (by decide)))
  | str s =>
    simp only [getInsertTextForGuessedValue]
    exact append_left_ne_empty _ _ (append_left_ne_empty _ _ (append_left_ne_empty _ _
      (by decide)))
  | arr xs =>
    simp only [getInsertTextForGuessedValue, getInsertTextForValue]
    split
    · exact append_left_ne_empty _ _ (by decide)
    · split
      · exact append_left_ne_empty _ _ (by decide)
      · exact plainText_ne_empty _ (append_left_ne_empty _ _ (stringifyTab_arr_ne_empty xs))
  | obj fs =>
    simp only [getInsertTextForGuessedValue, getInsertTextForValue]
    split
    · exact append_left_ne_empty _ _ (by decide)
    · split
      · exact append_left_ne_empty _ _ (by decide)
      · exact plainText_ne_empty _ (append_left_ne_empty _ _ (stringifyTab_obj_ne_empty fs))

theorem enumProposalStep_count (ps : JVal) (vn : Option String × Nat) :
    (enumProposalStep ps vn).2
      = vn.2 + (match jget ps "enum" with | some (.arr es) => es.length | _ => 0) := by
  unfold enumProposalStep
  rcases h : jget ps "enum" with _ | v
  · simp
  · cases v <;> simp

theorem constProposalStep_count (ps : JVal) (vn : Option String × Nat) :
    (constProposalStep ps vn).2
      = vn.2 + (match jget ps "const" with | some _ => 1 | none => 0) := by
  unfold constProposalStep
  rcases h : jget ps "const" with _ | v <;> simp

theorem examplesProposalStep_count (ps : JVal) (vn : Option String × Nat) :
    (examplesProposalStep ps vn).2
      = vn.2
        + (match jget ps "examples" with | some (.arr (e :: es)) => (e :: es).length | _ => 0) := by
  unfold examplesProposalStep
  rcases h : jget ps "examples" with _ | v
  · simp
  · cases v with
    | arr xs => cases xs <;> simp
    | null => simp
    | bool b => simp
    | num n => simp
    | str s => simp
    | obj fs => simp

theorem steps_count (ps : JVal) (vn : Option String × Nat) :
    (examplesProposalStep ps (constProposalStep ps (enumProposalStep ps vn))).2
      = vn.2 + nonDefaultProposalCount ps := by
  rw [examplesProposalStep_count, constProposalStep_count, enumProposalStep_count,
    nonDefaultProposalCount]
  omega

theorem placeholder_default (isJSON5 : Bool) (fields : List (String × JVal)) (d : JVal)
    (hd : jget (.obj fields) "default" = some d) :
    propertyValuePlaceholder isJSON5 (some (.obj fields)) = getInsertTextForGuessedValue d "" := by
  simp only [propertyValuePlaceholder, jsTypeofObject, hd]
  have hg := guessedValue_ne_empty d ""
  simp [ofalsyStr, hg]

theorem placeholder_ambiguous (isJSON5 : Bool) (fields : List (String × JVal))
    (hd : jget (.obj fields) "default" = none)
    (hc : nonDefaultProposalCount (.obj fields) > 1) :
    propertyValuePlaceholder isJSON5 (some (.obj fields)) = "#\x7b\x7d" := by
  have hn := steps_count (.obj fields) (none, 0)
  simp only [propertyValuePlaceholder, jsTypeofObject, hd, ite_true]
  rw [if_neg (by omega :
    ¬ ((examplesProposalStep (JVal.obj fields) (constProposalStep (JVal.obj fields)
        (enumProposalStep (JVal.obj fields) (none, 0)))).1 = none
      ∧ (examplesProposalStep (JVal.obj fields) (constProposalStep (JVal.obj fields)
        (enumProposalStep (JVal.obj fields) (none, 0)))).2 = 0))]
  rw [if_pos (Or.inr (by omega))]

theorem expand_no_ref (pfields : List (String × JVal)) (root : JVal)
    (h : oget pfields "$ref" = none) :
    expandSchemaProperty (.obj pfields) root = .obj pfields := by
  simp only [expandSchemaProperty, h]

/-- C2 counterexample: a property schema carrying both a `default` and
a multi-member `enum` — more than one of the four literal sources could
contribute — still gets the default pre-filled as the placeholder, not
the empty `#\x7b\x7d`, because the `default` branch short-circuits the
counting of the other sources. -/
theorem c2_counterexample :
    getInsertTextForProperty (.obj []) false "k" true ""
        (some (.obj [("default", .num 1), ("enum", .arr [.num 1, .num 2, .num 3])]))
      = "\"k\": $\x7b1\x7d"
    ∧ "\"k\": $\x7b1\x7d" ≠ "\"k\": #\x7b\x7d" := ⟨rfl, by decide⟩

/-- C2 amended: a declared `default` always pre-fills the placeholder,
regardless of any `enum`, `const` or `examples` alongside it (the
`default` branch is exclusive); when no `default` is declared, the
placeholder is left empty (`#\x7b\x7d`) as soon as the total number of
candidate proposals counted over `enum` members, `const` and `examples`
members exceeds one — in particular whenever more than one of those
sources could contribute. -/
theorem c2_amended_ambiguity (isJSON5 : Bool) (key rawWord : String) (root : JVal)
    (fields : List (String × JVal)) (hnoref : jget (.obj fields) "$ref" = none) :
    (∀ d, jget (.obj fields) "default" = some d →
      getInsertTextForProperty root isJSON5 key true rawWord (some (.obj fields))
        = (if isJSON5 then json5PropertyInsertSnippet rawWord key else "\"" ++ key ++ "\"")
          ++ ": " ++ getInsertTextForGuessedValue d "")
    ∧ (jget (.obj fields) "default" = none → nonDefaultProposalCount (.obj fields) > 1 →
      getInsertTextForProperty root isJSON5 key true rawWord (some (.obj fields))
        = (if isJSON5 then json5PropertyInsertSnippet rawWord key else "\"" ++ key ++ "\"")
          ++ ": " ++ "#\x7b\x7d") := by
  constructor
  · intro d hd
    simp only [getInsertTextForProperty, Option.map_some', expand_no_ref fields root hnoref]
    rw [placeholder_default isJSON5 fields d hd]
    simp
  · intro hd hc
    simp only [getInsertTextForProperty, Option.map_some', expand_no_ref fields root hnoref]
    rw [placeholder_ambiguous isJSON5 fields hd hc]
    simp

/-- Witness for the amended C2: a default next to a three-member enum
pre-fills the default; a two-member enum alone leaves the placeholder
empty. -/
theorem c2_amended_ambiguity_witness :
    getInsertTextForProperty (.obj []) false "k" true ""
        (some (.obj [("default", JVal.num 1),
          ("enum", JVal.arr [JVal.num 1, JVal.num 2, JVal.num 3])]))
      = (if false then json5PropertyInsertSnippet "" "k" else "\"" ++ "k" ++ "\"") ++ ": "
        ++ getInsertTextForGuessedValue (JVal.num 1) ""
    ∧ getInsertTextForProperty (.obj []) false "k" true ""
        (some (.obj [("enum", JVal.arr [JVal.num 1, JVal.num 2])]))
      = (if false then json5PropertyInsertSnippet "" "k" else "\"" ++ "k" ++ "\"") ++ ": "
        ++ "#\x7b\x7d" :=
  ⟨(c2_amended_ambiguity false "k" "" (.obj [])
      [("default", JVal.num 1), ("enum", JVal.arr [JVal.num 1, JVal.num 2, JVal.num 3])]
      rfl).1 (JVal.num 1) rfl,
    (c2_amended_ambiguity false "k" "" (.obj [])
      [("enum", JVal.arr [JVal.num 1, JVal.num 2])] rfl).2 rfl (by decide)⟩

/-- C5 counterexample: a resolved node carrying an `enum` NEXT TO other
members (so not a "bare enum-only node") still triggers the parent
fallback — the source tests only `subSchema.enum` for truthiness — so
the claim's "exactly when ... bare enum-only" reading fails here. -/
theorem c5_counterexample :
    shouldFallback (some (.obj [("enum", .arr [.str "a"]), ("type", .str "string")])) = true
    ∧ claimFallbackTrigger (some (.obj [("enum", .arr [.str "a"]), ("type", .str "string")]))
        = false := ⟨rfl, rfl⟩

theorem strip_keeps_trailing_slash (a b : String) (hb : ∀ c ∈ b.data, c ≠ '/') :
    stripLastPointerSegment (a ++ "/" ++ b) = a ++ "/" := by
  unfold stripLastPointerSegment
  have hdata : (a ++ "/" ++ b).data = a.data ++ '/' :: b.data := by
    simp [String.data_append]
  rw [if_pos]
  · apply congrArg String.mk
    rw [hdata, List.reverse_append]
    have h2 : ('/' :: b.data).reverse = b.data.reverse ++ ['/'] := by simp
    rw [h2, List.append_assoc]
    rw [List.dropWhile_append_of_pos (by
      intro c hc
      rw [List.mem_reverse] at hc
      simpa using hb c hc)]
    rw [show List.dropWhile (fun c => c != '/') (['/'] ++ a.data.reverse)
        = '/' :: a.data.reverse from by simp [List.dropWhile]]
    simp [String.data_append]
  · rw [hdata]
    simp

/-- C5 amended: the parent-pointer fallback fires exactly when the
pointer's resolution is falsy (it failed, or produced a boolean `false`
schema), yields an `UnknownPropertyError`-named node, yields a node
with a truthy `enum` member — bare or alongside any other members — or
yields a node whose `type` is the literal string "undefined". In those
cases `getSchemas` equals the straight resolution pipeline run once at
the pointer with its last segment stripped, keeping the trailing slash
(and otherwise at the original pointer). -/
theorem c5_amended_fallback :
    (∀ s : Option JVal, shouldFallback s = true ↔
      (s = none ∨ ∃ v, s = some v ∧ (jsTruthy v = false ∨ isUnknownPropertyErrorNode v = true
        ∨ otruthy (jget v "enum") = true ∨ isTypeUndefinedNode v = true)))
    ∧ (∀ (resolve : String → Option JVal) (rootSchema : JVal) (pointer : String),
      getSchemas resolve rootSchema pointer
        = getSchemasResolved resolve rootSchema
            (if shouldFallback (resolve pointer) then stripLastPointerSegment pointer
             else pointer))
    ∧ (∀ a b : String, (∀ c ∈ b.data, c ≠ '/') →
      stripLastPointerSegment (a ++ "/" ++ b) = a ++ "/") := by
  refine ⟨?_, ?_, fun a b hb => strip_keeps_trailing_slash a b hb⟩
  · intro s
    cases s with
    | none => simp [shouldFallback]
    | some v =>
      simp only [shouldFallback, Bool.or_eq_true, Bool.not_eq_true']
      constructor
      · intro h
        exact Or.inr ⟨v, rfl, by tauto⟩
      · rintro (h | ⟨w, hw, hcases⟩)
        · exact absurd h (by simp)
        · injection hw with hv
          subst hv
          tauto
  · intro resolve rootSchema pointer
    unfold getSchemas getSchemasResolved
    by_cases hf : shouldFallback (resolve pointer) = true
    · simp only [hf, if_true, ite_true]
    · simp only [hf, if_false, Bool.false_eq_true, ite_false]

/-- Witness for the amended C5: stripping the last segment of
"/foo/bar" keeps the trailing slash. -/
theorem c5_amended_fallback_witness :
    stripLastPointerSegment ("/foo" ++ "/" ++ "bar") = "/foo" ++ "/" :=
  c5_amended_fallback.2.2 "/foo" "bar" (by decide)

/-! Supporting lemmas for the property-value branch. -/

theorem filter_isEmpty_eq_not_any {α} (l : List α) (p : α → Bool) :
    (l.filter p).isEmpty = !l.any p := by
  induction l with
  | nil => rfl
  | cons a rest ih => by_cases h : p a <;> simp [List.filter_cons, h, ih]

theorem patternFold_eq (rt : String → String → Bool) (parentKey : String)
    (ppf ppfAll : List (String × JVal)) (st : ValueState) (m : Bool) :
    ppf.foldl (fun acc kv =>
      if rt kv.1 parentKey then
        ((match oget ppfAll kv.1 with
          | some pSchema =>
            if jsTruthy pSchema then addSchemaValueCompletions false pSchema acc.1 else acc.1
          | none => acc.1), true)
      else acc) (st, m)
    = ((ppf.filter (fun kv => rt kv.1 parentKey)).foldl (fun acc kv =>
        match oget ppfAll kv.1 with
        | some pSchema =>
          if jsTruthy pSchema then addSchemaValueCompletions false pSchema acc else acc
        | none => acc) st,
       m || ppf.any (fun kv => rt kv.1 parentKey)) := by
  induction ppf generalizing st m with
  | nil => simp
  | cons kv rest ih =>
    by_cases hm : rt kv.1 parentKey
    · simp only [List.foldl_cons, List.filter_cons, List.any_cons, hm, if_true]
      rw [ih]
      simp
    · simp only [List.foldl_cons, List.filter_cons, List.any_cons, hm, if_false]
      rw [ih]
      simp [hm]

theorem exactPropertyStep_eq (parentKey : String) (s : JVal) (st : ValueState) :
    exactPropertyStep parentKey s st
      = match exactPropertyHit parentKey s with
        | some pSchema => (addSchemaValueCompletions false pSchema st, true)
        | none => (st, false) := by
  unfold exactPropertyStep exactPropertyHit
  cases hp : jget s "properties" with
  | none => rfl
  | some props =>
    by_cases htp : jsTruthy props = true
    · simp only [htp, if_true, ite_true]
      cases hpk : jget props parentKey with
      | none => rfl
      | some pSchema =>
        by_cases hts : jsTruthy pSchema = true <;> simp [hts]
    · simp [htp]

theorem patternStep_flagged (rt : String → String → Bool) (parentKey : String) (s : JVal)
    (st : ValueState) :
    patternPropertiesStep rt parentKey s (st, true) = (st, true) := by
  unfold patternPropertiesStep
  cases hpp : jget s "patternProperties" with
  | none => rfl
  | some pp => simp

theorem patternStep_unflagged (rt : String → String → Bool) (parentKey : String) (s : JVal)
    (st : ValueState) :
    patternPropertiesStep rt parentKey s (st, false)
      = ((patternPropertyFields s).filter (fun kv => rt kv.1 parentKey)
          |>.foldl (fun acc kv =>
            match oget (patternPropertyFields s) kv.1 with
            | some pSchema =>
              if jsTruthy pSchema then addSchemaValueCompletions false pSchema acc else acc
            | none => acc) st,
         (patternPropertyFields s).any (fun kv => rt kv.1 parentKey)) := by
  unfold patternPropertiesStep patternPropertyFields
  cases hpp : jget s "patternProperties" with
  | none => simp
  | some pp =>
    cases pp with
    | obj ppf =>
      simp only [Bool.not_false, Bool.and_true]
      rw [if_pos (show jsTruthy (JVal.obj ppf) = true from rfl)]
      rw [patternFold_eq]
      simp
    | null => simp [jsTruthy]
    | bool b => cases b <;> simp [jsTruthy]
    | num n => by_cases hn : n = 0 <;> simp [jsTruthy, hn]
    | str t => by_cases ht : t = "" <;> simp [jsTruthy, ht]
    | arr xs => simp [jsTruthy]

theorem additionalStep_flagged (s : JVal) (st : ValueState) :
    additionalPropertiesStep s (st, true) = st := by
  unfold additionalPropertiesStep
  cases hap : jget s "additionalProperties" with
  | none => rfl
  | some ap => simp

theorem additionalStep_unflagged (s : JVal) (st : ValueState) :
    additionalPropertiesStep s (st, false)
      = match jget s "additionalProperties" with
        | some ap => if jsTruthy ap then addSchemaValueCompletions false ap st else st
        | none => st := by
  unfold additionalPropertiesStep
  cases hap : jget s "additionalProperties" with
  | none => rfl
  | some ap => by_cases h : jsTruthy ap = true <;> simp [h]

/-- C3 counterexample: with two patterns that both match the parent key
(the first contributing the const "A", the second the const "B"), the
second matching pattern's proposal "B" is also in the result — later
matching patterns are NOT short-circuited, refuting the claim that only
the first match contributes. -/
theorem c3_counterexample :
    "\"B\"" ∈ labelsOf (propertyValueBranch
        (fun p k => (p == "^a" || p == "^ab") && k == "abc") "abc"
        (.obj [("patternProperties", .obj
          [("^a", .obj [("const", .str "A")]), ("^ab", .obj [("const", .str "B")])])])
        ([], emptyCollector)).2
    ∧ "\"A\"" ∈ labelsOf (propertyValueBranch
        (fun p k => (p == "^a" || p == "^ab") && k == "abc") "abc"
        (.obj [("patternProperties", .obj
          [("^a", .obj [("const", .str "A")]), ("^ab", .obj [("const", .str "B")])])])
        ([], emptyCollector)).2 := by
  constructor <;>
    simp [propertyValueBranch, exactPropertyStep, patternPropertiesStep, additionalPropertiesStep,
      addSchemaValueCompletions, addSchemaListCompletions, combinatorLists,
      addEnumValueCompletions,
      addDefaultValueCompletions, addDefaultBase, collectTypes, jget, oget, jsTruthy, otruthy,
      cadd, Collector.add, mapSet, emptyCollector, labelsOf, jsonStringify, jsonQuote,
      jsonEscapeChar, typeFieldToString, descriptionOf, jsToStr, wrapInArrays]

/-- C3 amended: when the parent key has no truthy exact match in
`properties`, EVERY `patternProperties` entry whose regular expression
matches the parent key contributes value completions, in declaration
order — matching does not short-circuit — and `additionalProperties` is
consulted exactly when no pattern matched; a truthy exact `properties`
match short-circuits both. Stated as equality of the source branch with
the all-matches formulation, for all fragments and contexts. -/
theorem c3_amended_all_patterns_contribute (rt : String → String → Bool) (parentKey : String)
    (s : JVal) (st : ValueState) :
    propertyValueBranch rt parentKey s st = propertyValueBranchAllMatches rt parentKey s st := by
  unfold propertyValueBranch propertyValueBranchAllMatches
  rw [exactPropertyStep_eq]
  cases hx : exactPropertyHit parentKey s with
  | some pSchema =>
    rw [patternStep_flagged, additionalStep_flagged]
  | none =>
    rw [patternStep_unflagged]
    by_cases hany : (patternPropertyFields s).any (fun kv => rt kv.1 parentKey) = true
    · rw [hany, additionalStep_flagged]
      simp [filter_isEmpty_eq_not_any, hany]
    · rw [Bool.not_eq_true] at hany
      rw [hany, additionalStep_unflagged]
      simp [filter_isEmpty_eq_not_any, hany]

/-- C4 counterexample: in the claim's scenario — array schema with
`uniqueItems` and `items.enum = ["red","green","blue"]`, completing the
element after an existing "red" — the proposal "red" IS present: the
`uniqueItems` wrapper only dedupes against proposals already collected
in this request, never against sibling array elements of the document,
so nothing suppresses "red". -/
theorem c4_counterexample :
    "\"red\"" ∈ ((filterByPrefix "" ((getValueCompletionsCore (fun _ _ => false)
        ⟨true, none, some 1⟩
        [.obj [("type", .str "array"),
               ("items", .obj [("enum", .arr [.str "red", .str "green", .str "blue"])]),
               ("uniqueItems", .bool true)]]
        ([], emptyCollector)).2.completions.map (fun p => p.2))).map
      (fun c => c.label)) := by
  simp [getValueCompletionsCore, valueFragmentsLoop, processValueFragment, arrayValueBranch,
    propertyValueBranch, exactPropertyStep, patternPropertiesStep, additionalPropertiesStep,
    addSchemaValueCompletions, addSchemaListCompletions, combinatorLists,
    addEnumValueCompletions,
    addDefaultValueCompletions, addDefaultBase, collectTypes, jget, oget, jsTruthy, otruthy,
    jsTypeofObject, cadd, Collector.add, Collector.addUnique, mapSet, emptyCollector,
    jsonStringify, jsonQuote, jsonEscapeChar, typeFieldToString, descriptionOf, jsToStr,
    wrapInArrays, filterByPrefix, jsStartsWith, stripSurroundingQuotes, addTypeKey]

/-- C4 amended: in that scenario the value proposals are exactly
"red", "green" and "blue" (as JSON-rendered labels, in enum order): a
sibling array element already present in the document does not suppress
its proposal; the `uniqueItems` dedupe wrapper only prevents the same
label from being collected twice within one request. -/
theorem c4_amended_unique_items :
    ((filterByPrefix "" ((getValueCompletionsCore (fun _ _ => false)
        ⟨true, none, some 1⟩
        [.obj [("type", .str "array"),
               ("items", .obj [("enum", .arr [.str "red", .str "green", .str "blue"])]),
               ("uniqueItems", .bool true)]]
        ([], emptyCollector)).2.completions.map (fun p => p.2))).map
      (fun c => c.label))
      = ["\"red\"", "\"green\"", "\"blue\""] := by
  simp [getValueCompletionsCore, valueFragmentsLoop, processValueFragment, arrayValueBranch,
    propertyValueBranch, exactPropertyStep, patternPropertiesStep, additionalPropertiesStep,
    addSchemaValueCompletions, addSchemaListCompletions, combinatorLists,
    addEnumValueCompletions,
    addDefaultValueCompletions, addDefaultBase, collectTypes, jget, oget, jsTruthy, otruthy,
    jsTypeofObject, cadd, Collector.add, Collector.addUnique, mapSet, emptyCollector,
    jsonStringify, jsonQuote, jsonEscapeChar, typeFieldToString, descriptionOf, jsToStr,
    wrapInArrays, filterByPrefix, jsStartsWith, stripSurroundingQuotes, addTypeKey]

/-- Unfolding equation of `addSchemaValueCompletions` on an object fragment. -/
theorem addSchema_obj_unfold (dedupe : Bool) (fields : List (String × JVal)) (st : ValueState) :
    addSchemaValueCompletions dedupe (JVal.obj fields) st =
      addSchemaListCompletions dedupe (combinatorLists (JVal.obj fields) "oneOf")
        (addSchemaListCompletions dedupe (combinatorLists (JVal.obj fields) "anyOf")
          (addSchemaListCompletions dedupe (combinatorLists (JVal.obj fields) "allOf")
            (collectTypes (JVal.obj fields) st.1,
              addDefaultValueCompletions dedupe (JVal.obj fields)
                (addEnumValueCompletions dedupe (JVal.obj fields) st.2) 0))) := by
  rw [addSchemaValueCompletions.eq_def]

/-- A non-object fragment contributes nothing. -/
theorem addSchema_nonobj (dedupe : Bool) (s : JVal) (st : ValueState)
    (h : ∀ fields, s ≠ JVal.obj fields) :
    addSchemaValueCompletions dedupe s st = st := by
  cases s with
  | obj fields => exact absurd rfl (h fields)
  | null => rw [addSchemaValueCompletions.eq_def]
  | bool b => rw [addSchemaValueCompletions.eq_def]
  | num n => rw [addSchemaValueCompletions.eq_def]
  | str u => rw [addSchemaValueCompletions.eq_def]
  | arr xs => rw [addSchemaValueCompletions.eq_def]

/-- Unfolding equation of `typeContributedAnywhere` on an object fragment. -/
theorem typeContributed_obj_unfold (fields : List (String × JVal)) (t : String) :
    typeContributedAnywhere (JVal.obj fields) t =
      (nodeContributesType (JVal.obj fields) t
        || typeContributedList (combinatorLists (JVal.obj fields) "allOf") t
        || typeContributedList (combinatorLists (JVal.obj fields) "anyOf") t
        || typeContributedList (combinatorLists (JVal.obj fields) "oneOf") t) := by
  rw [typeContributedAnywhere.eq_def]

/-- Unfolding equation of `addSchemaListCompletions` on the empty list. -/
theorem addSchemaList_nil (dedupe : Bool) (st : ValueState) :
    addSchemaListCompletions dedupe [] st = st := by
  rw [addSchemaListCompletions.eq_def]

/-- Unfolding equation of `addSchemaListCompletions` on a cons. -/
theorem addSchemaList_cons (dedupe : Bool) (x : JVal) (xs : List JVal) (st : ValueState) :
    addSchemaListCompletions dedupe (x :: xs) st
      = addSchemaListCompletions dedupe xs (addSchemaValueCompletions dedupe x st) := by
  rw [addSchemaListCompletions.eq_def]


/-- Membership in the type set after one `types[t] = true` insertion. -/
theorem mem_addTypeKey (types : List String) (u t : String) :
    t ∈ addTypeKey types u ↔ t ∈ types ∨ u = t := by
  unfold addTypeKey
  split
  · constructor
    · exact Or.inl
    · rintro (h | h)
      · exact h
      · subst h; assumption
  · rw [List.mem_append]
    simp [eq_comm]

/-- Membership in the type set after inserting a whole `type` array. -/
theorem mem_foldl_addTypeKey (ts : List JVal) (types : List String) (t : String) :
    t ∈ ts.foldl (fun acc tv => addTypeKey acc (jsToStr tv)) types
      ↔ t ∈ types ∨ ts.any (fun tv => jsToStr tv == t) = true := by
  induction ts generalizing types with
  | nil => simp
  | cons tv rest ih =>
    simp only [List.foldl_cons, List.any_cons]
    rw [ih, mem_addTypeKey]
    simp [Bool.or_eq_true, or_assoc]

/-- Membership characterisation of `collectTypes`: one node adds `t` exactly when it contributes `t` itself. -/
theorem mem_collectTypes (s : JVal) (types : List String) (t : String) :
    t ∈ collectTypes s types ↔ t ∈ types ∨ nodeContributesType s t = true := by
  unfold collectTypes nodeContributesType
  by_cases hsup : ((match jget s "enum" with | some (.arr _) => true | _ => false)
      || (jget s "const").isSome) = true
  · simp [hsup]
  · simp only [hsup, if_false, Bool.false_eq_true]
    cases ht : jget s "type" with
    | none => simp
    | some tv =>
      cases tv with
      | arr ts =>
        rw [mem_foldl_addTypeKey]
      | null => simp [jsTruthy]
      | bool b => cases b <;> simp [jsTruthy, mem_addTypeKey]
      | num n => by_cases hn : n = 0 <;> simp [jsTruthy, hn, mem_addTypeKey]
      | str u => by_cases hu : u = "" <;> simp [jsTruthy, hu, mem_addTypeKey]
      | obj fs => simp [jsTruthy, mem_addTypeKey]

/-- A non-object fragment contributes no type anywhere. -/
theorem typeContributed_nonobj (s : JVal) (t : String) (h : ∀ fields, s ≠ JVal.obj fields) :
    typeContributedAnywhere s t = false := by
  cases s with
  | obj fields => exact absurd rfl (h fields)
  | null => rw [typeContributedAnywhere.eq_def]
  | bool b => rw [typeContributedAnywhere.eq_def]
  | num n => rw [typeContributedAnywhere.eq_def]
  | str u => rw [typeContributedAnywhere.eq_def]
  | arr xs => rw [typeContributedAnywhere.eq_def]

/-- Unfolding equation of `typeContributedList` on a cons. -/
theorem typeContributedList_cons (x : JVal) (xs : List JVal) (t : String) :
    typeContributedList (x :: xs) t
      = (typeContributedAnywhere x t || typeContributedList xs t) := by
  rw [typeContributedList.eq_def]

/-- Strong induction on the fragment size: the type set collected by `addSchemaValueCompletions` (and by its combinator-list loop) grows the input set by exactly the types contributed anywhere in the fragment. -/
theorem addSchema_types_mem_aux (dedupe : Bool) (t : String) :
    ∀ n : Nat,
      (∀ s : JVal, sizeOf s ≤ n → ∀ st : ValueState,
        (t ∈ (addSchemaValueCompletions dedupe s st).1 ↔
          t ∈ st.1 ∨ typeContributedAnywhere s t = true))
      ∧ (∀ l : List JVal, sizeOf l ≤ n → ∀ st : ValueState,
        (t ∈ (addSchemaListCompletions dedupe l st).1 ↔
          t ∈ st.1 ∨ typeContributedList l t = true)) := by
  intro n
  induction n using Nat.strong_induction_on with
  | _ n ih =>
    constructor
    · intro s hs st
      cases s with
      | obj fields =>
        have hsz : ∀ key, sizeOf (combinatorLists (JVal.obj fields) key) < n := by
          intro key
          have := sizeOf_combinatorLists fields key
          omega
        have hl : ∀ key (st' : ValueState),
            t ∈ (addSchemaListCompletions dedupe (combinatorLists (JVal.obj fields) key) st').1
              ↔ t ∈ st'.1
                ∨ typeContributedList (combinatorLists (JVal.obj fields) key) t = true :=
          fun key st' => (ih _ (hsz key)).2 _ (le_refl _) st'
        rw [addSchema_obj_unfold, typeContributed_obj_unfold]
        rw [hl, hl, hl]
        rw [show ((collectTypes (JVal.obj fields) st.1,
            addDefaultValueCompletions dedupe (JVal.obj fields)
              (addEnumValueCompletions dedupe (JVal.obj fields) st.2) 0) : ValueState).1
          = collectTypes (JVal.obj fields) st.1 from rfl]
        rw [mem_collectTypes]
        simp only [Bool.or_eq_true]
        tauto
      | null =>
        rw [addSchema_nonobj dedupe _ st (by intro f h; cases h),
          typeContributed_nonobj _ t (by intro f h; cases h)]
        simp
      | bool b =>
        rw [addSchema_nonobj dedupe _ st (by intro f h; cases h),
          typeContributed_nonobj _ t (by intro f h; cases h)]
        simp
      | num m =>
        rw [addSchema_nonobj dedupe _ st (by intro f h; cases h),
          typeContributed_nonobj _ t (by intro f h; cases h)]
        simp
      | str u =>
        rw [addSchema_nonobj dedupe _ st (by intro f h; cases h),
          typeContributed_nonobj _ t (by intro f h; cases h)]
        simp
      | arr xs =>
        rw [addSchema_nonobj dedupe _ st (by intro f h; cases h),
          typeContributed_nonobj _ t (by intro f h; cases h)]
        simp
    · intro l hlen st
      cases l with
      | nil =>
        rw [addSchemaList_nil]
        rw [show typeContributedList [] t = false from by rw [typeContributedList.eq_def]]
        simp
      | cons x xs =>
        rw [addSchemaList_cons, typeContributedList_cons]
        have hx : sizeOf x < n := by
          simp only [List.cons.sizeOf_spec] at hlen
          omega
        have hxs : sizeOf xs < n := by
          simp only [List.cons.sizeOf_spec] at hlen
          omega
        rw [(ih (sizeOf xs) hxs).2 xs (le_refl _)]
        rw [(ih (sizeOf x) hx).1 x (le_refl _)]
        simp only [Bool.or_eq_true]
        tauto


/-- The combinator-list loop is a left fold of `addSchemaValueCompletions`. -/
theorem addSchemaList_eq_foldl (dedupe : Bool) (l : List JVal) (st : ValueState) :
    addSchemaListCompletions dedupe l st
      = l.foldl (fun acc x => addSchemaValueCompletions dedupe x acc) st := by
  induction l generalizing st with
  | nil => rw [addSchemaList_nil, List.foldl_nil]
  | cons x xs ih => rw [addSchemaList_cons, List.foldl_cons, ih]

/-- Unfolding equation of the fuel-driven mirror on an object fragment. -/
theorem addSchemaB_succ_obj (fuel : Nat) (dedupe : Bool) (fields : List (String × JVal))
    (st : ValueState) :
    addSchemaValueCompletionsB (fuel + 1) dedupe (JVal.obj fields) st =
      (combinatorLists (JVal.obj fields) "oneOf").foldl
        (fun acc x => addSchemaValueCompletionsB fuel dedupe x acc)
        ((combinatorLists (JVal.obj fields) "anyOf").foldl
          (fun acc x => addSchemaValueCompletionsB fuel dedupe x acc)
          ((combinatorLists (JVal.obj fields) "allOf").foldl
            (fun acc x => addSchemaValueCompletionsB fuel dedupe x acc)
            (collectTypes (JVal.obj fields) st.1,
              addDefaultValueCompletionsBounded dedupe 5 (JVal.obj fields)
                (addEnumValueCompletions dedupe (JVal.obj fields) st.2) 0))) := rfl

/-- Congruence for the combinator fold when every branch is small enough for the fuel. -/
theorem foldl_addSchema_congr (dedupe : Bool) (n : Nat)
    (hn : ∀ (s : JVal), sizeOf s ≤ n → ∀ st : ValueState,
      addSchemaValueCompletions dedupe s st = addSchemaValueCompletionsB n dedupe s st)
    (l : List JVal) (hl : ∀ x ∈ l, sizeOf x ≤ n) :
    ∀ st : ValueState,
      l.foldl (fun acc x => addSchemaValueCompletions dedupe x acc) st
        = l.foldl (fun acc x => addSchemaValueCompletionsB n dedupe x acc) st := by
  induction l with
  | nil => intro st; rfl
  | cons x xs ih =>
    intro st
    rw [List.foldl_cons, List.foldl_cons, hn x (hl x (List.mem_cons_self x xs))]
    exact ih (fun y hy => hl y (List.mem_cons_of_mem x hy)) _

/-- With fuel at least the size of the fragment, the fuel-driven mirror agrees with `addSchemaValueCompletions`. -/
theorem addSchema_eq_bounded_aux :
    ∀ n : Nat, ∀ (s : JVal), sizeOf s ≤ n → ∀ (dedupe : Bool) (st : ValueState),
      addSchemaValueCompletions dedupe s st = addSchemaValueCompletionsB n dedupe s st := by
  intro n
  induction n using Nat.strong_induction_on with
  | _ n ih =>
    intro s hs dedupe st
    cases n with
    | zero =>
      exfalso
      cases s <;> simp only [JVal.null.sizeOf_spec, JVal.bool.sizeOf_spec,
        JVal.num.sizeOf_spec, JVal.str.sizeOf_spec, JVal.arr.sizeOf_spec,
        JVal.obj.sizeOf_spec] at hs <;> omega
    | succ n' =>
      cases s with
      | obj fields =>
        have hb : ∀ key, ∀ x ∈ combinatorLists (JVal.obj fields) key, sizeOf x ≤ n' := by
          intro key x hx
          have h1 := List.sizeOf_lt_of_mem hx
          have h2 := sizeOf_combinatorLists fields key
          omega
        have hn : ∀ (s : JVal), sizeOf s ≤ n' → ∀ st : ValueState,
            addSchemaValueCompletions dedupe s st = addSchemaValueCompletionsB n' dedupe s st :=
          fun s hsz st => ih n' (Nat.lt_succ_self n') s hsz dedupe st
        rw [addSchema_obj_unfold, addSchemaB_succ_obj,
          addSchemaList_eq_foldl, addSchemaList_eq_foldl, addSchemaList_eq_foldl,
          addDefault_eq_bounded_aux dedupe 5 _ _ 0 rfl,
          foldl_addSchema_congr dedupe n' hn _ (hb "allOf"),
          foldl_addSchema_congr dedupe n' hn _ (hb "anyOf"),
          foldl_addSchema_congr dedupe n' hn _ (hb "oneOf")]
      | null => rw [addSchema_nonobj dedupe _ st (by intro f h; cases h)]; rfl
      | bool b => rw [addSchema_nonobj dedupe _ st (by intro f h; cases h)]; rfl
      | num m => rw [addSchema_nonobj dedupe _ st (by intro f h; cases h)]; rfl
      | str u => rw [addSchema_nonobj dedupe _ st (by intro f h; cases h)]; rfl
      | arr xs => rw [addSchema_nonobj dedupe _ st (by intro f h; cases h)]; rfl

/-- `addSchemaValueCompletions` evaluated through its structural mirror at fuel `sizeOf s`. -/
theorem addSchema_eq_bounded (dedupe : Bool) (s : JVal) (st : ValueState) :
    addSchemaValueCompletions dedupe s st
      = addSchemaValueCompletionsB (sizeOf s) dedupe s st :=
  addSchema_eq_bounded_aux (sizeOf s) s (le_refl _) dedupe st


/-- Unfolding equation of `enumOrConstAnywhere` on an object fragment. -/
theorem enumOrConst_obj_unfold (fields : List (String × JVal)) :
    enumOrConstAnywhere (JVal.obj fields) =
      ((match jget (JVal.obj fields) "enum" with | some (.arr _) => true | _ => false)
        || (jget (JVal.obj fields) "const").isSome
        || enumOrConstAnywhereList (combinatorLists (JVal.obj fields) "allOf")
        || enumOrConstAnywhereList (combinatorLists (JVal.obj fields) "anyOf")
        || enumOrConstAnywhereList (combinatorLists (JVal.obj fields) "oneOf")) := by
  rw [enumOrConstAnywhere.eq_def]

/-- Unfolding equation of `enumOrConstAnywhereList` on the empty list. -/
theorem enumOrConstList_nil : enumOrConstAnywhereList [] = false := by
  rw [enumOrConstAnywhereList.eq_def]

/-- Unfolding equation of `enumOrConstAnywhereList` on a cons. -/
theorem enumOrConstList_cons (x : JVal) (xs : List JVal) :
    enumOrConstAnywhereList (x :: xs) =
      (enumOrConstAnywhere x || enumOrConstAnywhereList xs) := by
  rw [enumOrConstAnywhereList.eq_def]

/-- C6: counterexample. For the value of a property whose schema
fragment is an `anyOf` of a boolean-typed branch and an `enum` branch,
the fragment loop still proposes the boolean literal `true`, even
though an `enum` is present inside the fragment (in a combinator
branch) — which, by the claim, should have suppressed the type-based
boolean fallback. -/
theorem c6_counterexample :
    "true" ∈ labelsOf (processValueFragment (fun _ _ => false) ⟨false, some "k", none⟩
        (.obj [("properties", .obj [("k", .obj [("anyOf", .arr
          [.obj [("type", .str "boolean")], .obj [("enum", .arr [.num 1])]])])])])
        ([], emptyCollector)).2
    ∧ enumOrConstAnywhere (.obj [("anyOf", .arr
        [.obj [("type", .str "boolean")], .obj [("enum", .arr [.num 1])]])]) = true := by
  constructor
  · simp only [processValueFragment, arrayValueBranch, propertyValueBranch, exactPropertyStep,
      patternPropertiesStep, additionalPropertiesStep, addSchema_eq_bounded, jget, oget,
      jsTruthy, otruthy, List.find?]
    decide
  · simp [enumOrConst_obj_unfold, enumOrConstList_cons, enumOrConstList_nil,
      combinatorLists, jget, oget, List.find?]


/-- C6 (amended): the primitive-type set collected by
`addSchemaValueCompletions` contains a type `t` exactly when some node
of the fragment — the root or any nested `allOf` / `anyOf` / `oneOf`
branch — declares `t` in its `type` member while THAT node itself
carries no `enum` array and no defined `const`: the enum/const
suppression of the type-based boolean/null fallback is per node, not
fragment-wide. -/
theorem c6_amended_per_node_type_collection :
    ∀ (dedupe : Bool) (s : JVal) (st : ValueState) (t : String),
      t ∈ (addSchemaValueCompletions dedupe s st).1 ↔
        t ∈ st.1 ∨ typeContributedAnywhere s t = true := by
  intro dedupe s st t
  exact (addSchema_types_mem_aux dedupe t (sizeOf s)).1 s (le_refl _) st

end JsonCompletion
